import Mathlib

/-!
Verification development for the `openproficiency` Python library.

The Python sources are shallowly embedded as Lean definitions:

* Python `dict`s (insertion ordered, unique keys) are modelled as association
  lists `List (String × α)` together with the operations `dictGet`
  (`d.get(k)` / `d[k]`), `dictUpsert` (`d[k] = v`: replace in place when the
  key is present, append otherwise) and `regModify` (in-place mutation of the
  object stored at a key).
* `datetime` values are modelled as their normalised ISO-8601 strings;
  `datetime.fromisoformat(s.replace("Z", "+00:00"))` followed by
  `.isoformat()` is modelled as `s.replace "Z" "+00:00"`, and the wall clock
  `datetime.now(timezone.utc)` is passed in as an explicit `now : String`
  parameter wherever the source consults it.
* floats are modelled as rationals (`ℚ`); every literal appearing in the
  score code is exactly representable.
* code that raises returns `Except String α`; the error payload models the
  exception message (quotes from the Python f-strings are dropped).
* Python's `re.match(pattern ++ "$", s)` succeeds on `s` that matches the
  pattern exactly, and also when `s` is such a match followed by one final
  newline (`$` matches before a trailing newline); `pyMatch` models this.
-/

namespace OpenProficiency

/-! ## Python dict primitives -/

def dictGet {α : Type} : List (String × α) → String → Option α
  | [], _ => none
  | (k', v) :: m, k => if k' = k then some v else dictGet m k

def dictUpsert {α : Type} : List (String × α) → String → α → List (String × α)
  | [], k, v => [(k, v)]
  | (k', v') :: m, k, v => if k' = k then (k, v) :: m else (k', v') :: dictUpsert m k v

def dictKeys {α : Type} (m : List (String × α)) : List String := m.map Prod.fst

@[simp]
theorem dictGet_nil {α : Type} (k : String) : dictGet ([] : List (String × α)) k = none := rfl

@[simp]
theorem dictGet_cons {α : Type} (k' k : String) (v : α) (m : List (String × α)) :
    dictGet ((k', v) :: m) k = if k' = k then some v else dictGet m k := rfl

@[simp]
theorem dictKeys_nil {α : Type} : dictKeys ([] : List (String × α)) = [] := rfl

@[simp]
theorem dictKeys_cons {α : Type} (k : String) (v : α) (m : List (String × α)) :
    dictKeys ((k, v) :: m) = k :: dictKeys m := rfl

theorem dictKeys_append {α : Type} (m n : List (String × α)) :
    dictKeys (m ++ n) = dictKeys m ++ dictKeys n := by
  simp [dictKeys]

theorem dictGet_eq_none_iff {α : Type} (m : List (String × α)) (k : String) :
    dictGet m k = none ↔ k ∉ dictKeys m := by
  induction m with
  | nil => simp
  | cons p m ih =>
    obtain ⟨k', v⟩ := p
    by_cases h : k' = k
    · subst h
      simp
    · simp [h, ih, Ne.symm h]

theorem dictGet_isSome_iff {α : Type} (m : List (String × α)) (k : String) :
    (dictGet m k).isSome ↔ k ∈ dictKeys m := by
  rw [Option.isSome_iff_ne_none]
  simp [Ne, dictGet_eq_none_iff]

theorem dictGet_mem {α : Type} {m : List (String × α)} {k : String} {v : α}
    (h : dictGet m k = some v) : (k, v) ∈ m := by
  induction m with
  | nil => simp at h
  | cons p m ih =>
    obtain ⟨k', v'⟩ := p
    by_cases hk : k' = k
    · subst hk
      simp at h
      simp [h]
    · simp [hk] at h
      simp [ih h]

theorem dictGet_mem_keys {α : Type} {m : List (String × α)} {k : String} {v : α}
    (h : dictGet m k = some v) : k ∈ dictKeys m := by
  rw [← dictGet_isSome_iff, h]
  rfl

@[simp]
theorem dictGet_dictUpsert_self {α : Type} (m : List (String × α)) (k : String) (v : α) :
    dictGet (dictUpsert m k v) k = some v := by
  induction m with
  | nil => simp [dictUpsert]
  | cons p m ih =>
    obtain ⟨k', v'⟩ := p
    by_cases h : k' = k <;> simp [dictUpsert, h, ih]

theorem dictGet_dictUpsert_ne {α : Type} (m : List (String × α)) (k j : String) (v : α)
    (hj : j ≠ k) : dictGet (dictUpsert m k v) j = dictGet m j := by
  induction m with
  | nil => simp [dictUpsert, Ne.symm hj]
  | cons p m ih =>
    obtain ⟨k', v'⟩ := p
    by_cases h : k' = k
    · subst h
      simp [dictUpsert, Ne.symm hj]
    · simp [dictUpsert, h, ih]

theorem dictUpsert_of_not_mem {α : Type} (m : List (String × α)) (k : String) (v : α)
    (h : k ∉ dictKeys m) : dictUpsert m k v = m ++ [(k, v)] := by
  induction m with
  | nil => simp [dictUpsert]
  | cons p m ih =>
    obtain ⟨k', v'⟩ := p
    simp only [dictKeys_cons, List.mem_cons] at h
    push_neg at h
    simp [dictUpsert, Ne.symm h.1, ih h.2]

theorem dictUpsert_self_eq {α : Type} {m : List (String × α)} {k : String} {v : α}
    (h : dictGet m k = some v) : dictUpsert m k v = m := by
  induction m with
  | nil => simp at h
  | cons p m ih =>
    obtain ⟨k', v'⟩ := p
    by_cases hk : k' = k
    · subst hk
      simp at h
      simp [dictUpsert, h]
    · simp [hk] at h
      simp [dictUpsert, hk, ih h]

theorem dictKeys_dictUpsert_mem {α : Type} (m : List (String × α)) (k : String) (v : α)
    (h : k ∈ dictKeys m) : dictKeys (dictUpsert m k v) = dictKeys m := by
  induction m with
  | nil => simp at h
  | cons p m ih =>
    obtain ⟨k', v'⟩ := p
    by_cases hk : k' = k
    · subst hk
      simp [dictUpsert]
    · simp only [dictKeys_cons, List.mem_cons] at h
      rcases h with h | h
      · exact absurd h.symm hk
      · simp [dictUpsert, hk, ih h]

theorem mem_dictKeys_dictUpsert {α : Type} (m : List (String × α)) (k j : String) (v : α) :
    j ∈ dictKeys (dictUpsert m k v) ↔ j ∈ dictKeys m ∨ j = k := by
  induction m with
  | nil => simp [dictUpsert, eq_comm]
  | cons p m ih =>
    obtain ⟨k', v'⟩ := p
    by_cases hk : k' = k
    · subst hk
      constructor
      · rintro h
        simp [dictUpsert] at h
        rcases h with h | h
        · exact Or.inr h
        · exact Or.inl (by simp [h])
      · intro h
        simp [dictUpsert]
        rcases h with h | h
        · simp at h
          rcases h with h | h
          · exact Or.inl h
          · exact Or.inr h
        · exact Or.inl h
    · simp [dictUpsert, hk, ih, or_assoc]

theorem nodup_dictKeys_dictUpsert {α : Type} (m : List (String × α)) (k : String) (v : α)
    (h : (dictKeys m).Nodup) : (dictKeys (dictUpsert m k v)).Nodup := by
  by_cases hk : k ∈ dictKeys m
  · rw [dictKeys_dictUpsert_mem m k v hk]
    exact h
  · rw [dictUpsert_of_not_mem m k v hk, dictKeys_append]
    simp [List.nodup_append, h, hk]

/-- `regModify m k f` models an in-place mutation of the (unique) object stored
at key `k` of a Python dict: the entry keeps its position, every other entry is
untouched, and a missing key leaves the dict unchanged. -/
def regModify {α : Type} : List (String × α) → String → (α → α) → List (String × α)
  | [], _, _ => []
  | (k', t) :: m, k, f => if k' = k then (k', f t) :: m else (k', t) :: regModify m k f

@[simp]
theorem regModify_nil {α : Type} (k : String) (f : α → α) :
    regModify [] k f = [] := rfl

theorem dictGet_regModify_self {α : Type} (m : List (String × α)) (k : String) (f : α → α) :
    dictGet (regModify m k f) k = (dictGet m k).map f := by
  induction m with
  | nil => simp
  | cons p m ih =>
    obtain ⟨k', t⟩ := p
    by_cases h : k' = k
    · subst h
      simp [regModify]
    · simp [regModify, h, ih]

theorem dictGet_regModify_ne {α : Type} (m : List (String × α)) (k j : String) (f : α → α)
    (hj : j ≠ k) : dictGet (regModify m k f) j = dictGet m j := by
  induction m with
  | nil => simp
  | cons p m ih =>
    obtain ⟨k', t⟩ := p
    by_cases h : k' = k
    · subst h
      simp [regModify, Ne.symm hj]
    · simp [regModify, h, ih]

theorem dictKeys_regModify {α : Type} (m : List (String × α)) (k : String) (f : α → α) :
    dictKeys (regModify m k f) = dictKeys m := by
  induction m with
  | nil => simp
  | cons p m ih =>
    obtain ⟨k', t⟩ := p
    by_cases h : k' = k <;> simp [regModify, h, ih]

/-! ## Identifier validators (`openproficiency/validators.py`)

`re.match` with a pattern anchored by `$` accepts an exact match of the
pattern, and also an exact match followed by one final newline (Python's `$`
matches just before a trailing newline).  `pyMatch core s` models
`re.match(pattern, s) is not None` for the anchored pattern whose exact-match
semantics is `core`. -/

/-- `splitChars sep cs` is Python's `str.split(sep)` on the character list:
`splitChars sep [] = [[]]`, and every occurrence of `sep` starts a new
(possibly empty) segment. -/
def splitChars (sep : Char) : List Char → List (List Char)
  | [] => [[]]
  | c :: cs =>
      match splitChars sep cs with
      | [] => [[]]
      | r :: rs => if c = sep then [] :: r :: rs else (c :: r) :: rs

/-- Python `sep.join(xs)`. -/
def joinWith (sep : String) : List String → String
  | [] => ""
  | [x] => x
  | x :: xs => x ++ sep ++ joinWith sep xs

def pySplit (sep : Char) (s : String) : List String :=
  (splitChars sep s.data).map String.mk

def pyEndsWithNewline (s : String) : Bool :=
  match s.data.reverse with
  | [] => false
  | c :: _ => c == '\n'

def pyDropLast (s : String) : String := String.mk s.data.dropLast

def isKebabChar (c : Char) : Bool := c.isLower || c.isDigit

/-- Exact-match semantics of the component pattern `[a-z0-9]+(?:-[a-z0-9]+)*`
on a character list: non-empty lowercase-alphanumeric segments joined by
single hyphens. -/
def kebabChars (cs : List Char) : Bool :=
  (splitChars '-' cs).all (fun seg => !seg.isEmpty && seg.all isKebabChar)

/-- Exact-match semantics of the pattern `^[a-z0-9]+(?:-[a-z0-9]+)*$`. -/
def kebabCore (s : String) : Bool := kebabChars s.data

def pyMatch (core : String → Bool) (s : String) : Bool :=
  core s || (pyEndsWithNewline s && core (pyDropLast s))

def validate_kebab_case (value : String) : Except String Unit :=
  if value = "" then Except.error "Value cannot be empty"
  else if pyMatch kebabCore value then Except.ok ()
  else Except.error ("Value must be in kebab-case format (lowercase alphanumeric with hyphens). Got: " ++ value)

/-- Exact-match semantics of `^comp(?:\.comp)+$` with
`comp = [a-z0-9]+(?:-[a-z0-9]+)*`: two or more dot-joined kebab components. -/
def hostCore (s : String) : Bool :=
  decide (2 ≤ (splitChars '.' s.data).length) && (splitChars '.' s.data).all kebabChars

def validate_hostname (value : String) : Except String Unit :=
  if value = "" then Except.error "Value cannot be empty"
  else if pyMatch hostCore value then Except.ok ()
  else Except.error ("Value must be a valid hostname (lowercase alphanumeric with hyphens and dots). Got: " ++ value)

/-- Exact-match semantics of `^\d+\.\d+\.\d+$`. -/
def semverCore (s : String) : Bool :=
  ((splitChars '.' s.data).length == 3) &&
    (splitChars '.' s.data).all (fun p => !p.isEmpty && p.all Char.isDigit)

/-- The shared `version` setter of `TopicList` / `ProficiencyLevelList`:
`None` is accepted, otherwise the value must match the semver pattern. -/
def checkVersion (v : Option String) : Except String Unit :=
  match v with
  | none => Except.ok ()
  | some s =>
      if pyMatch semverCore s then Except.ok ()
      else Except.error ("Invalid version format: " ++ s ++ ". Must be semantic versioning (X.Y.Z)")

/-! ## Topic (`openproficiency/Topic.py`) -/

structure Topic where
  id : String
  description : String
  subtopics : List String
  pretopics : List String
deriving DecidableEq

/-- `Topic.add_subtopic` accepts a string id or a `Topic` and appends the id
to the edge list; it is modelled on the appended id. -/
def Topic.add_subtopic (t : Topic) (subtopicId : String) : Topic :=
  { t with subtopics := t.subtopics ++ [subtopicId] }

def Topic.add_pretopic (t : Topic) (pretopicId : String) : Topic :=
  { t with pretopics := t.pretopics ++ [pretopicId] }

/-! ## TopicList (`openproficiency/TopicList.py`)

The `dependencies` attribute of a Python `TopicList` is initialised to `{}`
and never read or written anywhere in the repository, so it is omitted from
the embedding.  `timestamp` is the normalised ISO string (see the module
comment). -/

structure TopicList where
  owner : String
  name : String
  description : Option String
  version : Option String
  timestamp : String
  certificate : Option String
  topics : List (String × Topic)
deriving DecidableEq

/-- `self.topics[topic.id] = topic` -/
def TopicList.add_topic_reg (reg : List (String × Topic)) (t : Topic) : List (String × Topic) :=
  dictUpsert reg t.id t

def TopicList.get_topic (tl : TopicList) (topicId : String) : Option Topic :=
  dictGet tl.topics topicId

/-- `TopicList.full_name` as implemented: it never appends the version. -/
def TopicList.full_name (tl : TopicList) : String :=
  tl.owner ++ "/" ++ tl.name

/-! ## Tree ingestion (`TopicList.from_json` and the two work-stack loops)

`ChildDesc` is the parsed form of one element of a `subtopics`/`pretopics`
array: a bare string id, an object with an `id` (plus optional
`description` and nested arrays), or anything else (`other`, which the
loops skip).  `TopicData` is the value under one key of the top-level
`topics` object, and `TLDoc` the whole parsed document.

The Python loops hold Topic *objects* in their work stacks and mutate them
in place; since `add_topic` always registers an object under its own `id`
and at most one object per id is ever created, an object is faithfully
identified by its id, and mutation becomes `regModify` at that key. -/

inductive ChildDesc where
  | str (id : String)
  | obj (id : String) (description : Option String)
      (subtopics : List ChildDesc) (pretopics : List ChildDesc)
  | other

structure TopicEntry where
  description : Option String
  subtopics : List ChildDesc
  pretopics : List ChildDesc

inductive TopicData where
  | entry (e : TopicEntry)
  | other

structure TLDoc where
  owner : Option String
  name : Option String
  description : Option String
  version : Option String
  timestamp : Option String
  certificate : Option String
  topics : List (String × TopicData)

abbrev Reg := List (String × Topic)

mutual
def sizeSub : ChildDesc → Nat
  | ChildDesc.str _ => 1
  | ChildDesc.other => 1
  | ChildDesc.obj _ _ subs _ => 1 + sizeSubL subs
def sizeSubL : List ChildDesc → Nat
  | [] => 0
  | d :: ds => sizeSub d + sizeSubL ds
end

mutual
def sizePre : ChildDesc → Nat
  | ChildDesc.str _ => 1
  | ChildDesc.other => 1
  | ChildDesc.obj _ _ _ pres => 1 + sizePreL pres
def sizePreL : List ChildDesc → Nat
  | [] => 0
  | d :: ds => sizePre d + sizePreL ds
end

/-- The body of the `for subtopic_object in current_subtopics` loop of
`_add_subtopics_recursive`: find or create the child, queue its nested
subtopics (when it is an object with a non-empty nested list), register the
child and append its id to the parent's `subtopics` edge list. -/
def subChild (reg : Reg) (parentId : String) (d : ChildDesc) :
    Reg × List (List ChildDesc × String) :=
  match d with
  | ChildDesc.str cid =>
      let t := match dictGet reg cid with
        | some t => t
        | none => { id := cid, description := "", subtopics := [], pretopics := [] }
      (regModify (TopicList.add_topic_reg reg t) parentId (fun pt => pt.add_subtopic t.id), [])
  | ChildDesc.obj cid desc subs _pres =>
      let t := match dictGet reg cid with
        | some t => t
        | none => { id := cid, description := desc.getD "", subtopics := [], pretopics := [] }
      let pushed := if subs.isEmpty then [] else [(subs, t.id)]
      (regModify (TopicList.add_topic_reg reg t) parentId (fun pt => pt.add_subtopic t.id), pushed)
  | ChildDesc.other => (reg, [])

def processSubList (parentId : String) : Reg → List ChildDesc → Reg × List (List ChildDesc × String)
  | reg, [] => (reg, [])
  | reg, d :: ds =>
      let r1 := subChild reg parentId d
      let r2 := processSubList parentId r1.1 ds
      (r2.1, r1.2 ++ r2.2)

/-- The live `current_child.description` read when a pretopic is created:
the frame's child Topic object, which ingestion keeps registered under its
id (a missing key is unreachable from `from_json` and defaults to `""`). -/
def currentChildDescription (reg : Reg) (childId : String) : String :=
  match dictGet reg childId with
  | some ct => ct.description
  | none => ""

/-- The body of the `for pretopic_object in current_pretopics` loop of
`_add_pretopics_recursive`: as `subChild`, but a newly created pretopic
inherits the current child's description and the edge goes into
`pretopics`. -/
def preChild (reg : Reg) (childId : String) (d : ChildDesc) :
    Reg × List (List ChildDesc × String) :=
  match d with
  | ChildDesc.str cid =>
      let t := match dictGet reg cid with
        | some t => t
        | none =>
            { id := cid, description := currentChildDescription reg childId,
              subtopics := [], pretopics := [] }
      (regModify (TopicList.add_topic_reg reg t) childId (fun ct => ct.add_pretopic t.id), [])
  | ChildDesc.obj cid desc _subs pres =>
      let t := match dictGet reg cid with
        | some t => t
        | none =>
            { id := cid, description := desc.getD (currentChildDescription reg childId),
              subtopics := [], pretopics := [] }
      let pushed := if pres.isEmpty then [] else [(pres, t.id)]
      (regModify (TopicList.add_topic_reg reg t) childId (fun ct => ct.add_pretopic t.id), pushed)
  | ChildDesc.other => (reg, [])

def processPreList (childId : String) : Reg → List ChildDesc → Reg × List (List ChildDesc × String)
  | reg, [] => (reg, [])
  | reg, d :: ds =>
      let r1 := preChild reg childId d
      let r2 := processPreList childId r1.1 ds
      (r2.1, r1.2 ++ r2.2)

def stackWSub (st : List (List ChildDesc × String)) : Nat :=
  (st.map (fun fr => sizeSubL fr.1 + 1)).sum

def stackWPre (st : List (List ChildDesc × String)) : Nat :=
  (st.map (fun fr => sizePreL fr.1 + 1)).sum

theorem stackWSub_append (a b : List (List ChildDesc × String)) :
    stackWSub (a ++ b) = stackWSub a + stackWSub b := by
  simp [stackWSub]

theorem stackWSub_reverse (a : List (List ChildDesc × String)) :
    stackWSub a.reverse = stackWSub a := by
  simp only [stackWSub, List.map_reverse, List.sum_reverse]

theorem stackWPre_append (a b : List (List ChildDesc × String)) :
    stackWPre (a ++ b) = stackWPre a + stackWPre b := by
  simp [stackWPre]

theorem stackWPre_reverse (a : List (List ChildDesc × String)) :
    stackWPre a.reverse = stackWPre a := by
  simp only [stackWPre, List.map_reverse, List.sum_reverse]

theorem subChild_weight (reg : Reg) (p : String) (d : ChildDesc) :
    stackWSub (subChild reg p d).2 ≤ sizeSub d := by
  cases d with
  | str cid => simp [subChild, stackWSub, sizeSub]
  | other => simp [subChild, stackWSub, sizeSub]
  | obj cid desc subs pres =>
      by_cases h : subs.isEmpty
      · simp [subChild, stackWSub, sizeSub, h]
      · simp [subChild, stackWSub, sizeSub, h]
        omega

theorem preChild_weight (reg : Reg) (p : String) (d : ChildDesc) :
    stackWPre (preChild reg p d).2 ≤ sizePre d := by
  cases d with
  | str cid => simp [preChild, stackWPre, sizePre]
  | other => simp [preChild, stackWPre, sizePre]
  | obj cid desc subs pres =>
      by_cases h : pres.isEmpty
      · simp [preChild, stackWPre, sizePre, h]
      · simp [preChild, stackWPre, sizePre, h]
        omega

theorem processSubList_weight (p : String) :
    ∀ (l : List ChildDesc) (reg : Reg),
      stackWSub (processSubList p reg l).2 ≤ sizeSubL l := by
  intro l
  induction l with
  | nil => intro reg; simp [processSubList, stackWSub]
  | cons d ds ih =>
      intro reg
      have h1 := subChild_weight reg p d
      have h2 := ih (subChild reg p d).1
      simp only [processSubList, sizeSubL]
      rw [stackWSub_append]
      omega

theorem processPreList_weight (p : String) :
    ∀ (l : List ChildDesc) (reg : Reg),
      stackWPre (processPreList p reg l).2 ≤ sizePreL l := by
  intro l
  induction l with
  | nil => intro reg; simp [processPreList, stackWPre]
  | cons d ds ih =>
      intro reg
      have h1 := preChild_weight reg p d
      have h2 := ih (preChild reg p d).1
      simp only [processPreList, sizePreL]
      rw [stackWPre_append]
      omega

/-- The `while stack` loop of `_add_subtopics_recursive`.  The Python stack
appends and pops at the same end; it is modelled head-first, so one popped
frame's newly pushed frames are `pushed.reverse` on top of the rest. -/
def runSubStack (reg : Reg) (stack : List (List ChildDesc × String)) : Reg :=
  match stack with
  | [] => reg
  | (l, p) :: rest =>
      runSubStack (processSubList p reg l).1 ((processSubList p reg l).2.reverse ++ rest)
termination_by stackWSub stack
decreasing_by
  have h := processSubList_weight p l reg
  have hcons : stackWSub ((l, p) :: rest) = sizeSubL l + 1 + stackWSub rest := by
    simp [stackWSub]
  rw [stackWSub_append, stackWSub_reverse, hcons]
  omega

/-- The `while stack` loop of `_add_pretopics_recursive`. -/
def runPreStack (reg : Reg) (stack : List (List ChildDesc × String)) : Reg :=
  match stack with
  | [] => reg
  | (l, p) :: rest =>
      runPreStack (processPreList p reg l).1 ((processPreList p reg l).2.reverse ++ rest)
termination_by stackWPre stack
decreasing_by
  have h := processPreList_weight p l reg
  have hcons : stackWPre ((l, p) :: rest) = sizePreL l + 1 + stackWPre rest := by
    simp [stackWPre]
  rw [stackWPre_append, stackWPre_reverse, hcons]
  omega

/-- The body of the `for topic_id, topic_data in topics.items()` loop of
`TopicList.from_json`: find-or-create the topic, then for a dict entry set
its description (default `""`) and run the two work-stack loops; any other
entry shape is reported and skipped (the find-or-create still happened). -/
def loadEntry (reg : Reg) (kv : String × TopicData) : Reg :=
  let reg1 := match dictGet reg kv.1 with
    | some _ => reg
    | none => TopicList.add_topic_reg reg { id := kv.1, description := "", subtopics := [], pretopics := [] }
  match kv.2 with
  | TopicData.other => reg1
  | TopicData.entry e =>
      let reg2 := regModify reg1 kv.1 (fun t => { t with description := e.description.getD "" })
      let reg3 := runSubStack reg2 [(e.subtopics, kv.1)]
      runPreStack reg3 [(e.pretopics, kv.1)]

def loadTopics (reg : Reg) (entries : List (String × TopicData)) : Reg :=
  entries.foldl loadEntry reg

/-- Python `str.replace("Z", "+00:00")` (all occurrences). -/
def replaceZ (s : String) : String :=
  String.mk (s.data.foldr (fun c acc => if c = 'Z' then "+00:00".data ++ acc else c :: acc) [])

/-- `TopicList.__init__`: `version` goes through the validating setter,
`timestamp` defaults to the current UTC time (`now`) and a string timestamp
is normalised; `topics` starts empty. -/
def TopicList.make (now owner name : String) (description version timestamp certificate : Option String) :
    Except String TopicList :=
  match checkVersion version with
  | Except.error e => Except.error e
  | Except.ok _ =>
      Except.ok
        { owner := owner, name := name, description := description, version := version,
          timestamp := (match timestamp with | none => now | some t => replaceZ t),
          certificate := certificate, topics := [] }

/-- `TopicList.from_json` on the parsed document: build the empty list via
`__init__` (timestamp defaulting to the clock value `now`, version
validated), then run the topics loop on the initially empty registry. -/
def TopicList.from_json (now : String) (d : TLDoc) : Except String TopicList :=
  match TopicList.make now (d.owner.getD "") (d.name.getD "") d.description d.version d.timestamp d.certificate with
  | Except.error e => Except.error e
  | Except.ok tl => Except.ok { tl with topics := loadTopics [] d.topics }

/-- One value of the exported `topics` dict: `description` is always
written; `subtopics`/`pretopics` are written only when non-empty, and an
absent key reads back as `[]`, so both sides are modelled by the (possibly
empty) list of bare-string ids. -/
def Topic.entryDoc (t : Topic) : TopicData :=
  TopicData.entry
    { description := some t.description,
      subtopics := t.subtopics.map ChildDesc.str,
      pretopics := t.pretopics.map ChildDesc.str }

/-- `TopicList.to_dict` (`to_json` is `json.dumps` of this document):
optional header fields are written only when set, `timestamp.isoformat()`
is the stored normalised string. -/
def TopicList.to_dict (tl : TopicList) : TLDoc :=
  { owner := some tl.owner, name := some tl.name, description := tl.description,
    version := tl.version, timestamp := some tl.timestamp, certificate := tl.certificate,
    topics := tl.topics.map (fun kv => (kv.1, kv.2.entryDoc)) }

/-! ## Registry invariants

Every registry reachable through `from_json` keeps each topic under its own
id (`add_topic` keys by `topic.id`), has no duplicate keys, and only edge
ids that are registered (`add_topic` runs before the edge append). -/

def NodupKeys {α : Type} (m : List (String × α)) : Prop := (dictKeys m).Nodup

def idOK (reg : Reg) : Prop := ∀ p ∈ reg, Topic.id p.2 = p.1

def closedReg (reg : Reg) : Prop :=
  ∀ p ∈ reg,
    (∀ c ∈ Topic.subtopics p.2, c ∈ dictKeys reg) ∧
    (∀ c ∈ Topic.pretopics p.2, c ∈ dictKeys reg)

def WFReg (reg : Reg) : Prop := NodupKeys reg ∧ idOK reg ∧ closedReg reg

theorem dictGet_append_left {α : Type} {m : List (String × α)} (n : List (String × α))
    {k : String} {v : α} (h : dictGet m k = some v) : dictGet (m ++ n) k = some v := by
  induction m with
  | nil => simp at h
  | cons p m ih =>
    obtain ⟨k', v'⟩ := p
    by_cases hk : k' = k
    · subst hk
      simp at h
      simp [h]
    · simp [hk] at h
      simp [hk, ih h]

theorem dictGet_append_right {α : Type} {m : List (String × α)} (n : List (String × α))
    {k : String} (h : dictGet m k = none) : dictGet (m ++ n) k = dictGet n k := by
  induction m with
  | nil => simp
  | cons p m ih =>
    obtain ⟨k', v'⟩ := p
    by_cases hk : k' = k
    · subst hk
      simp at h
    · simp [hk] at h
      simp [hk, ih h]

theorem dictGet_of_mem_nodup {α : Type} {m : List (String × α)} {k : String} {v : α}
    (h : NodupKeys m) (hm : (k, v) ∈ m) : dictGet m k = some v := by
  induction m with
  | nil => simp at hm
  | cons p m ih =>
    obtain ⟨k', v'⟩ := p
    simp only [NodupKeys, dictKeys_cons, List.nodup_cons] at h
    rcases List.mem_cons.mp hm with hq | hq
    · obtain ⟨he1, he2⟩ := Prod.mk.injEq k v k' v' ▸ hq
      subst he1
      subst he2
      simp
    · have hk : k' ≠ k := by
        intro he
        subst he
        exact h.1 (by simpa [dictKeys] using List.mem_map_of_mem Prod.fst hq)
      simp [hk, ih h.2 hq]

theorem mem_dictUpsert {α : Type} {m : List (String × α)} {k : String} {v : α}
    {q : String × α} (h : q ∈ dictUpsert m k v) : q ∈ m ∨ q = (k, v) := by
  induction m with
  | nil => simpa [dictUpsert] using h
  | cons p m ih =>
    obtain ⟨k', v'⟩ := p
    by_cases hk : k' = k
    · subst hk
      simp only [dictUpsert, if_pos rfl] at h
      rcases List.mem_cons.mp h with hq | hq
      · exact Or.inr hq
      · exact Or.inl (List.mem_cons_of_mem _ hq)
    · simp only [dictUpsert, if_neg hk] at h
      rcases List.mem_cons.mp h with hq | hq
      · exact Or.inl (by simp [hq])
      · rcases ih hq with hq2 | hq2
        · exact Or.inl (List.mem_cons_of_mem _ hq2)
        · exact Or.inr hq2

theorem mem_regModify {α : Type} {m : List (String × α)} {k : String} {f : α → α}
    {q : String × α} (h : q ∈ regModify m k f) :
    q ∈ m ∨ ∃ t, (k, t) ∈ m ∧ q = (k, f t) := by
  induction m with
  | nil => simp [regModify] at h
  | cons p m ih =>
    obtain ⟨k', v'⟩ := p
    by_cases hk : k' = k
    · subst hk
      simp only [regModify, if_pos rfl] at h
      rcases List.mem_cons.mp h with hq | hq
      · exact Or.inr ⟨v', by simp, hq⟩
      · exact Or.inl (List.mem_cons_of_mem _ hq)
    · simp only [regModify, if_neg hk] at h
      rcases List.mem_cons.mp h with hq | hq
      · exact Or.inl (by simp [hq])
      · rcases ih hq with hq2 | hq2
        · exact Or.inl (List.mem_cons_of_mem _ hq2)
        · obtain ⟨t, ht, he⟩ := hq2
          exact Or.inr ⟨t, List.mem_cons_of_mem _ ht, he⟩

theorem nodupKeys_regModify {α : Type} {m : List (String × α)} {k : String} {f : α → α}
    (h : NodupKeys m) : NodupKeys (regModify m k f) := by
  unfold NodupKeys
  rw [dictKeys_regModify]
  exact h

theorem idOK_dictGet {reg : Reg} {k : String} {t : Topic}
    (hid : idOK reg) (h : dictGet reg k = some t) : t.id = k :=
  hid (k, t) (dictGet_mem h)

theorem idOK_dictUpsert {reg : Reg} {k : String} {t : Topic}
    (hid : idOK reg) (ht : t.id = k) : idOK (dictUpsert reg k t) := by
  intro q hq
  rcases mem_dictUpsert hq with h | h
  · exact hid q h
  · rw [h]
    exact ht

theorem idOK_regModify {reg : Reg} {k : String} {f : Topic → Topic}
    (hid : idOK reg) (hf : ∀ t, Topic.id (f t) = t.id) : idOK (regModify reg k f) := by
  intro q hq
  rcases mem_regModify hq with h | h
  · exact hid q h
  · obtain ⟨t, ht, he⟩ := h
    rw [he]
    simpa [hf t] using hid (k, t) ht

theorem mem_dictKeys_of_mem {α : Type} {m : List (String × α)} {k : String} {v : α}
    (h : (k, v) ∈ m) : k ∈ dictKeys m := by
  simpa [dictKeys] using List.mem_map_of_mem Prod.fst h

theorem closedReg_dictUpsert_fresh {reg : Reg} {k : String} {t : Topic}
    (hc : closedReg reg) (hsub : t.subtopics = []) (hpre : t.pretopics = []) :
    closedReg (dictUpsert reg k t) := by
  intro q hq
  have hkeys : ∀ j, j ∈ dictKeys reg → j ∈ dictKeys (dictUpsert reg k t) := by
    intro j hj
    exact (mem_dictKeys_dictUpsert reg k j t).mpr (Or.inl hj)
  rcases mem_dictUpsert hq with h | h
  · exact ⟨fun c hcm => hkeys c ((hc q h).1 c hcm), fun c hcm => hkeys c ((hc q h).2 c hcm)⟩
  · rw [h]
    constructor
    · intro c hcm
      rw [hsub] at hcm
      simp at hcm
    · intro c hcm
      rw [hpre] at hcm
      simp at hcm

theorem closedReg_regModify {reg : Reg} {p : String} {f : Topic → Topic}
    (hc : closedReg reg)
    (hsub : ∀ t, ∀ c ∈ Topic.subtopics (f t), c ∈ Topic.subtopics t ∨ c ∈ dictKeys reg)
    (hpre : ∀ t, ∀ c ∈ Topic.pretopics (f t), c ∈ Topic.pretopics t ∨ c ∈ dictKeys reg) :
    closedReg (regModify reg p f) := by
  intro q hq
  have hkeys : ∀ j, j ∈ dictKeys reg → j ∈ dictKeys (regModify reg p f) := by
    intro j hj
    rw [dictKeys_regModify]
    exact hj
  rcases mem_regModify hq with h | h
  · exact ⟨fun c hcm => hkeys c ((hc q h).1 c hcm), fun c hcm => hkeys c ((hc q h).2 c hcm)⟩
  · obtain ⟨t, ht, he⟩ := h
    rw [he]
    constructor
    · intro c hcm
      rcases hsub t c hcm with h2 | h2
      · exact hkeys c ((hc (p, t) ht).1 c h2)
      · exact hkeys c h2
    · intro c hcm
      rcases hpre t c hcm with h2 | h2
      · exact hkeys c ((hc (p, t) ht).2 c h2)
      · exact hkeys c h2

/-- The common shape of one child step: register a found-or-created topic
`t` (found: re-registering is a no-op; created: empty edge lists) and append
one edge `t.id` on the entry at `p`.  This preserves well-formedness. -/
theorem register_and_link_WF (reg : Reg) (p cid : String) (t : Topic)
    (h : WFReg reg) (ht : t.id = cid)
    (hcase : dictGet reg cid = some t ∨
      (dictGet reg cid = none ∧ t.subtopics = [] ∧ t.pretopics = []))
    (f : Topic → Topic)
    (hf_id : ∀ t2, Topic.id (f t2) = t2.id)
    (hf_sub : ∀ t2, ∀ c ∈ Topic.subtopics (f t2), c ∈ Topic.subtopics t2 ∨ c = cid)
    (hf_pre : ∀ t2, ∀ c ∈ Topic.pretopics (f t2), c ∈ Topic.pretopics t2 ∨ c = cid) :
    WFReg (regModify (TopicList.add_topic_reg reg t) p f) := by
  obtain ⟨hn, hid, hc⟩ := h
  have hreg1 : WFReg (TopicList.add_topic_reg reg t) ∧ cid ∈ dictKeys (TopicList.add_topic_reg reg t) := by
    unfold TopicList.add_topic_reg
    rw [ht]
    rcases hcase with hdg | ⟨hdg, hsub0, hpre0⟩
    · rw [dictUpsert_self_eq hdg]
      exact ⟨⟨hn, hid, hc⟩, dictGet_mem_keys hdg⟩
    · refine ⟨⟨nodup_dictKeys_dictUpsert reg cid t hn, idOK_dictUpsert hid ht,
        closedReg_dictUpsert_fresh hc hsub0 hpre0⟩, ?_⟩
      exact (mem_dictKeys_dictUpsert reg cid cid t).mpr (Or.inr rfl)
  obtain ⟨⟨hn1, hid1, hc1⟩, hcid1⟩ := hreg1
  refine ⟨nodupKeys_regModify hn1, idOK_regModify hid1 hf_id, ?_⟩
  refine closedReg_regModify hc1 ?_ ?_
  · intro t2 c hcm
    rcases hf_sub t2 c hcm with h2 | h2
    · exact Or.inl h2
    · subst h2
      exact Or.inr hcid1
  · intro t2 c hcm
    rcases hf_pre t2 c hcm with h2 | h2
    · exact Or.inl h2
    · subst h2
      exact Or.inr hcid1

theorem subChild_WF (reg : Reg) (p : String) (d : ChildDesc) (h : WFReg reg) :
    WFReg (subChild reg p d).1 := by
  cases d with
  | str cid =>
      cases hdg : dictGet reg cid with
      | some t =>
          have ht : t.id = cid := idOK_dictGet h.2.1 hdg
          simp only [subChild, hdg]
          refine register_and_link_WF reg p cid t h ht (Or.inl hdg) _ (fun t2 => rfl) ?_ ?_
          · intro t2 c hcm
            rw [ht] at hcm
            simpa [Topic.add_subtopic] using hcm
          · intro t2 c hcm
            exact Or.inl (by simpa [Topic.add_subtopic] using hcm)
      | none =>
          simp only [subChild, hdg]
          refine register_and_link_WF reg p cid _ h rfl (Or.inr ⟨hdg, rfl, rfl⟩) _
            (fun t2 => rfl) ?_ ?_
          · intro t2 c hcm
            simpa [Topic.add_subtopic] using hcm
          · intro t2 c hcm
            exact Or.inl (by simpa [Topic.add_subtopic] using hcm)
  | obj cid desc subs pres =>
      cases hdg : dictGet reg cid with
      | some t =>
          have ht : t.id = cid := idOK_dictGet h.2.1 hdg
          simp only [subChild, hdg]
          refine register_and_link_WF reg p cid t h ht (Or.inl hdg) _ (fun t2 => rfl) ?_ ?_
          · intro t2 c hcm
            rw [ht] at hcm
            simpa [Topic.add_subtopic] using hcm
          · intro t2 c hcm
            exact Or.inl (by simpa [Topic.add_subtopic] using hcm)
      | none =>
          simp only [subChild, hdg]
          refine register_and_link_WF reg p cid _ h rfl (Or.inr ⟨hdg, rfl, rfl⟩) _
            (fun t2 => rfl) ?_ ?_
          · intro t2 c hcm
            simpa [Topic.add_subtopic] using hcm
          · intro t2 c hcm
            exact Or.inl (by simpa [Topic.add_subtopic] using hcm)
  | other =>
      simpa [subChild] using h

theorem preChild_WF (reg : Reg) (p : String) (d : ChildDesc) (h : WFReg reg) :
    WFReg (preChild reg p d).1 := by
  cases d with
  | str cid =>
      cases hdg : dictGet reg cid with
      | some t =>
          have ht : t.id = cid := idOK_dictGet h.2.1 hdg
          simp only [preChild, hdg]
          refine register_and_link_WF reg p cid t h ht (Or.inl hdg) _ (fun t2 => rfl) ?_ ?_
          · intro t2 c hcm
            exact Or.inl (by simpa [Topic.add_pretopic] using hcm)
          · intro t2 c hcm
            rw [ht] at hcm
            simpa [Topic.add_pretopic] using hcm
      | none =>
          simp only [preChild, hdg]
          refine register_and_link_WF reg p cid _ h rfl (Or.inr ⟨hdg, rfl, rfl⟩) _
            (fun t2 => rfl) ?_ ?_
          · intro t2 c hcm
            exact Or.inl (by simpa [Topic.add_pretopic] using hcm)
          · intro t2 c hcm
            simpa [Topic.add_pretopic] using hcm
  | obj cid desc subs pres =>
      cases hdg : dictGet reg cid with
      | some t =>
          have ht : t.id = cid := idOK_dictGet h.2.1 hdg
          simp only [preChild, hdg]
          refine register_and_link_WF reg p cid t h ht (Or.inl hdg) _ (fun t2 => rfl) ?_ ?_
          · intro t2 c hcm
            exact Or.inl (by simpa [Topic.add_pretopic] using hcm)
          · intro t2 c hcm
            rw [ht] at hcm
            simpa [Topic.add_pretopic] using hcm
      | none =>
          simp only [preChild, hdg]
          refine register_and_link_WF reg p cid _ h rfl (Or.inr ⟨hdg, rfl, rfl⟩) _
            (fun t2 => rfl) ?_ ?_
          · intro t2 c hcm
            exact Or.inl (by simpa [Topic.add_pretopic] using hcm)
          · intro t2 c hcm
            simpa [Topic.add_pretopic] using hcm
  | other =>
      simpa [preChild] using h

theorem processSubList_WF (p : String) :
    ∀ (l : List ChildDesc) (reg : Reg), WFReg reg → WFReg (processSubList p reg l).1 := by
  intro l
  induction l with
  | nil => intro reg h; simpa [processSubList] using h
  | cons d ds ih =>
      intro reg h
      simpa [processSubList] using ih (subChild reg p d).1 (subChild_WF reg p d h)

theorem processPreList_WF (p : String) :
    ∀ (l : List ChildDesc) (reg : Reg), WFReg reg → WFReg (processPreList p reg l).1 := by
  intro l
  induction l with
  | nil => intro reg h; simpa [processPreList] using h
  | cons d ds ih =>
      intro reg h
      simpa [processPreList] using ih (preChild reg p d).1 (preChild_WF reg p d h)

theorem runSubStack_WF :
    ∀ (reg : Reg) (st : List (List ChildDesc × String)), WFReg reg →
      WFReg (runSubStack reg st) := by
  intro reg st
  induction reg, st using runSubStack.induct with
  | case1 reg =>
      intro h
      simpa [runSubStack] using h
  | case2 reg l p rest ih =>
      intro h
      rw [runSubStack]
      exact ih (processSubList_WF p l reg h)

theorem runPreStack_WF :
    ∀ (reg : Reg) (st : List (List ChildDesc × String)), WFReg reg →
      WFReg (runPreStack reg st) := by
  intro reg st
  induction reg, st using runPreStack.induct with
  | case1 reg =>
      intro h
      simpa [runPreStack] using h
  | case2 reg l p rest ih =>
      intro h
      rw [runPreStack]
      exact ih (processPreList_WF p l reg h)

theorem loadEntry_WF (reg : Reg) (kv : String × TopicData) (h : WFReg reg) :
    WFReg (loadEntry reg kv) := by
  obtain ⟨k, td⟩ := kv
  have h1 : WFReg (match dictGet reg k with
      | some _ => reg
      | none => TopicList.add_topic_reg reg
          { id := k, description := "", subtopics := [], pretopics := [] }) := by
    cases hdg : dictGet reg k with
    | some t => exact h
    | none =>
        obtain ⟨hn, hid, hc⟩ := h
        refine ⟨?_, idOK_dictUpsert hid rfl, closedReg_dictUpsert_fresh hc rfl rfl⟩
        exact nodup_dictKeys_dictUpsert reg k _ hn
  cases td with
  | other => simpa [loadEntry] using h1
  | entry e =>
      simp only [loadEntry]
      refine runPreStack_WF _ _ (runSubStack_WF _ _ ?_)
      obtain ⟨hn, hid, hc⟩ := h1
      refine ⟨nodupKeys_regModify hn, idOK_regModify hid (fun t2 => rfl), ?_⟩
      refine closedReg_regModify hc ?_ ?_
      · intro t2 c hcm
        exact Or.inl hcm
      · intro t2 c hcm
        exact Or.inl hcm

theorem loadTopics_WF :
    ∀ (es : List (String × TopicData)) (reg : Reg), WFReg reg →
      WFReg (loadTopics reg es) := by
  intro es
  induction es with
  | nil => intro reg h; simpa [loadTopics] using h
  | cons kv es ih =>
      intro reg h
      simpa [loadTopics] using ih (loadEntry reg kv) (loadEntry_WF reg kv h)

theorem WFReg_nil : WFReg [] := by
  refine ⟨List.nodup_nil, ?_, ?_⟩ <;> intro q hq <;> simp at hq

theorem from_json_WF (now : String) (d : TLDoc) (tl : TopicList)
    (h : TopicList.from_json now d = Except.ok tl) : WFReg tl.topics := by
  unfold TopicList.from_json TopicList.make at h
  cases hv : checkVersion d.version with
  | error e =>
      rw [hv] at h
      exact Except.noConfusion h
  | ok u =>
      rw [hv] at h
      have : tl.topics = loadTopics [] d.topics := by
        have := Except.ok.inj h
        rw [← this]
      exact this ▸ loadTopics_WF d.topics [] WFReg_nil

/-! ## Effect of one bare-string child step

Serialised documents contain only bare-string child descriptors, so the
round-trip analysis needs the exact effect of `subChild`/`preChild` on a
`ChildDesc.str`: the parent/child entry gets one edge appended, an
unregistered id is created (empty description for subtopics, the child's
description for pretopics), and every other entry is untouched. -/

theorem subChild_str_step (reg : Reg) (p c : String) (tk : Topic)
    (hn : NodupKeys reg) (hid : idOK reg) (hp : dictGet reg p = some tk) :
    (subChild reg p (ChildDesc.str c)).2 = [] ∧
    NodupKeys (subChild reg p (ChildDesc.str c)).1 ∧
    idOK (subChild reg p (ChildDesc.str c)).1 ∧
    dictGet (subChild reg p (ChildDesc.str c)).1 p = some (tk.add_subtopic c) ∧
    (∀ j t, j ≠ p → dictGet reg j = some t →
      dictGet (subChild reg p (ChildDesc.str c)).1 j = some t) ∧
    (dictGet reg c = none →
      dictGet (subChild reg p (ChildDesc.str c)).1 c
        = some { id := c, description := "", subtopics := [], pretopics := [] }) ∧
    (∀ j, j ≠ p → j ≠ c → dictGet reg j = none →
      dictGet (subChild reg p (ChildDesc.str c)).1 j = none) ∧
    (∀ j, j ∈ dictKeys (subChild reg p (ChildDesc.str c)).1 ↔ j ∈ dictKeys reg ∨ j = c) := by
  cases hdg : dictGet reg c with
  | some t =>
      have ht : t.id = c := idOK_dictGet hid hdg
      have hred : subChild reg p (ChildDesc.str c)
          = (regModify reg p (fun pt => pt.add_subtopic c), []) := by
        simp only [subChild, hdg, TopicList.add_topic_reg, ht, dictUpsert_self_eq hdg]
      rw [hred]
      refine ⟨rfl, nodupKeys_regModify hn, idOK_regModify hid (fun t2 => rfl), ?_, ?_, ?_, ?_, ?_⟩
      · rw [dictGet_regModify_self, hp]
        rfl
      · intro j t2 hjp hj
        rw [dictGet_regModify_ne _ _ _ _ hjp, hj]
      · intro hcontra
        exact Option.noConfusion hcontra
      · intro j hjp hjc hj
        rw [dictGet_regModify_ne _ _ _ _ hjp, hj]
      · intro j
        rw [dictKeys_regModify]
        constructor
        · exact Or.inl
        · rintro (h | rfl)
          · exact h
          · exact dictGet_mem_keys hdg
  | none =>
      have hpc : p ≠ c := by
        intro he
        rw [he, hdg] at hp
        exact Option.noConfusion hp
      have hred : subChild reg p (ChildDesc.str c)
          = (regModify (dictUpsert reg c { id := c, description := "", subtopics := [], pretopics := [] })
              p (fun pt => pt.add_subtopic c), []) := by
        simp only [subChild, hdg, TopicList.add_topic_reg]
      rw [hred]
      refine ⟨rfl, nodupKeys_regModify (nodup_dictKeys_dictUpsert reg c _ hn),
        idOK_regModify (idOK_dictUpsert hid rfl) (fun t2 => rfl), ?_, ?_, ?_, ?_, ?_⟩
      · rw [dictGet_regModify_self, dictGet_dictUpsert_ne reg c p _ hpc, hp]
        rfl
      · intro j t2 hjp hj
        have hjc : j ≠ c := by
          intro he
          rw [he, hdg] at hj
          exact Option.noConfusion hj
        rw [dictGet_regModify_ne _ _ _ _ hjp, dictGet_dictUpsert_ne reg c j _ hjc, hj]
      · intro _
        rw [dictGet_regModify_ne _ _ _ _ (Ne.symm hpc), dictGet_dictUpsert_self]
      · intro j hjp hjc hj
        rw [dictGet_regModify_ne _ _ _ _ hjp, dictGet_dictUpsert_ne reg c j _ hjc, hj]
      · intro j
        rw [dictKeys_regModify]
        exact mem_dictKeys_dictUpsert reg c j _

theorem preChild_str_step (reg : Reg) (p c : String) (tk : Topic)
    (hn : NodupKeys reg) (hid : idOK reg) (hp : dictGet reg p = some tk) :
    (preChild reg p (ChildDesc.str c)).2 = [] ∧
    NodupKeys (preChild reg p (ChildDesc.str c)).1 ∧
    idOK (preChild reg p (ChildDesc.str c)).1 ∧
    dictGet (preChild reg p (ChildDesc.str c)).1 p = some (tk.add_pretopic c) ∧
    (∀ j t, j ≠ p → dictGet reg j = some t →
      dictGet (preChild reg p (ChildDesc.str c)).1 j = some t) ∧
    (dictGet reg c = none →
      dictGet (preChild reg p (ChildDesc.str c)).1 c
        = some { id := c, description := tk.description, subtopics := [], pretopics := [] }) ∧
    (∀ j, j ≠ p → j ≠ c → dictGet reg j = none →
      dictGet (preChild reg p (ChildDesc.str c)).1 j = none) ∧
    (∀ j, j ∈ dictKeys (preChild reg p (ChildDesc.str c)).1 ↔ j ∈ dictKeys reg ∨ j = c) := by
  have hccd : currentChildDescription reg p = tk.description := by
    simp [currentChildDescription, hp]
  cases hdg : dictGet reg c with
  | some t =>
      have ht : t.id = c := idOK_dictGet hid hdg
      have hred : preChild reg p (ChildDesc.str c)
          = (regModify reg p (fun ct => ct.add_pretopic c), []) := by
        simp only [preChild, hdg, TopicList.add_topic_reg, ht, dictUpsert_self_eq hdg]
      rw [hred]
      refine ⟨rfl, nodupKeys_regModify hn, idOK_regModify hid (fun t2 => rfl), ?_, ?_, ?_, ?_, ?_⟩
      · rw [dictGet_regModify_self, hp]
        rfl
      · intro j t2 hjp hj
        rw [dictGet_regModify_ne _ _ _ _ hjp, hj]
      · intro hcontra
        exact Option.noConfusion hcontra
      · intro j hjp hjc hj
        rw [dictGet_regModify_ne _ _ _ _ hjp, hj]
      · intro j
        rw [dictKeys_regModify]
        constructor
        · exact Or.inl
        · rintro (h | rfl)
          · exact h
          · exact dictGet_mem_keys hdg
  | none =>
      have hpc : p ≠ c := by
        intro he
        rw [he, hdg] at hp
        exact Option.noConfusion hp
      have hred : preChild reg p (ChildDesc.str c)
          = (regModify (dictUpsert reg c
              { id := c, description := tk.description, subtopics := [], pretopics := [] })
              p (fun ct => ct.add_pretopic c), []) := by
        simp only [preChild, hdg, TopicList.add_topic_reg, hccd]
      rw [hred]
      refine ⟨rfl, nodupKeys_regModify (nodup_dictKeys_dictUpsert reg c _ hn),
        idOK_regModify (idOK_dictUpsert hid rfl) (fun t2 => rfl), ?_, ?_, ?_, ?_, ?_⟩
      · rw [dictGet_regModify_self, dictGet_dictUpsert_ne reg c p _ hpc, hp]
        rfl
      · intro j t2 hjp hj
        have hjc : j ≠ c := by
          intro he
          rw [he, hdg] at hj
          exact Option.noConfusion hj
        rw [dictGet_regModify_ne _ _ _ _ hjp, dictGet_dictUpsert_ne reg c j _ hjc, hj]
      · intro _
        rw [dictGet_regModify_ne _ _ _ _ (Ne.symm hpc), dictGet_dictUpsert_self]
      · intro j hjp hjc hj
        rw [dictGet_regModify_ne _ _ _ _ hjp, dictGet_dictUpsert_ne reg c j _ hjc, hj]
      · intro j
        rw [dictKeys_regModify]
        exact mem_dictKeys_dictUpsert reg c j _

/-- Effect of the subtopics loop on a list of bare-string ids: no frames are
queued, the parent's `subtopics` edge list is extended by `ids` in order
(duplicates kept), unregistered ids are created with empty description and
edges, and every other entry is untouched. -/
theorem processSubList_str_spec (p : String) :
    ∀ (ids : List String) (reg : Reg) (tk : Topic),
      NodupKeys reg → idOK reg → dictGet reg p = some tk →
      (processSubList p reg (ids.map ChildDesc.str)).2 = [] ∧
      NodupKeys (processSubList p reg (ids.map ChildDesc.str)).1 ∧
      idOK (processSubList p reg (ids.map ChildDesc.str)).1 ∧
      dictGet (processSubList p reg (ids.map ChildDesc.str)).1 p
        = some { tk with subtopics := tk.subtopics ++ ids } ∧
      (∀ j t, j ≠ p → dictGet reg j = some t →
        dictGet (processSubList p reg (ids.map ChildDesc.str)).1 j = some t) ∧
      (∀ j, j ≠ p → dictGet reg j = none → j ∉ ids →
        dictGet (processSubList p reg (ids.map ChildDesc.str)).1 j = none) ∧
      (∀ j, j ∈ dictKeys (processSubList p reg (ids.map ChildDesc.str)).1 ↔
        j ∈ dictKeys reg ∨ j ∈ ids) ∧
      (∀ j, j ≠ p → dictGet reg j = none → j ∈ ids →
        dictGet (processSubList p reg (ids.map ChildDesc.str)).1 j
          = some { id := j, description := "", subtopics := [], pretopics := [] }) := by
  intro ids
  induction ids with
  | nil =>
      intro reg tk hn hid hp
      refine ⟨rfl, hn, hid, ?_, ?_, ?_, ?_, ?_⟩
      · rw [List.append_nil]
        exact hp
      · intro j t _ hj
        exact hj
      · intro j _ hj _
        exact hj
      · intro j
        simp [processSubList]
      · intro j _ _ hj
        simp at hj
  | cons c ids2 ih =>
      intro reg tk hn hid hp
      obtain ⟨hfr, hn1, hid1, hp1, hpres1, hcre1, hnone1, hkeys1⟩ :=
        subChild_str_step reg p c tk hn hid hp
      obtain ⟨ihfr, ihn, ihid, ihp, ihpres, ihnone, ihkeys, ihcre⟩ :=
        ih (subChild reg p (ChildDesc.str c)).1 (tk.add_subtopic c) hn1 hid1 hp1
      have hunf : processSubList p reg ((c :: ids2).map ChildDesc.str)
          = ((processSubList p (subChild reg p (ChildDesc.str c)).1 (ids2.map ChildDesc.str)).1,
             (subChild reg p (ChildDesc.str c)).2
               ++ (processSubList p (subChild reg p (ChildDesc.str c)).1 (ids2.map ChildDesc.str)).2) := by
        simp [processSubList]
      rw [hunf]
      refine ⟨?_, ihn, ihid, ?_, ?_, ?_, ?_, ?_⟩
      · rw [hfr, ihfr]
        rfl
      · rw [ihp]
        simp [Topic.add_subtopic]
      · intro j t hjp hj
        exact ihpres j t hjp (hpres1 j t hjp hj)
      · intro j hjp hj hjm
        simp only [List.mem_cons, not_or] at hjm
        exact ihnone j hjp (hnone1 j hjp hjm.1 hj) hjm.2
      · intro j
        rw [ihkeys j, hkeys1 j]
        simp [or_assoc]
      · intro j hjp hj hjm
        by_cases hjc : j = c
        · subst hjc
          exact ihpres j _ hjp (hcre1 hj)
        · have hjm2 : j ∈ ids2 := by
            rcases List.mem_cons.mp hjm with h2 | h2
            · exact absurd h2 hjc
            · exact h2
          exact ihcre j hjp (hnone1 j hjp hjc hj) hjm2

/-- Effect of the pretopics loop on a list of bare-string ids (mirror of
`processSubList_str_spec`; created topics inherit the child's description,
which the loop never changes). -/
theorem processPreList_str_spec (p : String) :
    ∀ (ids : List String) (reg : Reg) (tk : Topic),
      NodupKeys reg → idOK reg → dictGet reg p = some tk →
      (processPreList p reg (ids.map ChildDesc.str)).2 = [] ∧
      NodupKeys (processPreList p reg (ids.map ChildDesc.str)).1 ∧
      idOK (processPreList p reg (ids.map ChildDesc.str)).1 ∧
      dictGet (processPreList p reg (ids.map ChildDesc.str)).1 p
        = some { tk with pretopics := tk.pretopics ++ ids } ∧
      (∀ j t, j ≠ p → dictGet reg j = some t →
        dictGet (processPreList p reg (ids.map ChildDesc.str)).1 j = some t) ∧
      (∀ j, j ≠ p → dictGet reg j = none → j ∉ ids →
        dictGet (processPreList p reg (ids.map ChildDesc.str)).1 j = none) ∧
      (∀ j, j ∈ dictKeys (processPreList p reg (ids.map ChildDesc.str)).1 ↔
        j ∈ dictKeys reg ∨ j ∈ ids) ∧
      (∀ j, j ≠ p → dictGet reg j = none → j ∈ ids →
        dictGet (processPreList p reg (ids.map ChildDesc.str)).1 j
          = some { id := j, description := tk.description, subtopics := [], pretopics := [] }) := by
  intro ids
  induction ids with
  | nil =>
      intro reg tk hn hid hp
      refine ⟨rfl, hn, hid, ?_, ?_, ?_, ?_, ?_⟩
      · rw [List.append_nil]
        exact hp
      · intro j t _ hj
        exact hj
      · intro j _ hj _
        exact hj
      · intro j
        simp [processPreList]
      · intro j _ _ hj
        simp at hj
  | cons c ids2 ih =>
      intro reg tk hn hid hp
      obtain ⟨hfr, hn1, hid1, hp1, hpres1, hcre1, hnone1, hkeys1⟩ :=
        preChild_str_step reg p c tk hn hid hp
      obtain ⟨ihfr, ihn, ihid, ihp, ihpres, ihnone, ihkeys, ihcre⟩ :=
        ih (preChild reg p (ChildDesc.str c)).1 (tk.add_pretopic c) hn1 hid1 hp1
      have hunf : processPreList p reg ((c :: ids2).map ChildDesc.str)
          = ((processPreList p (preChild reg p (ChildDesc.str c)).1 (ids2.map ChildDesc.str)).1,
             (preChild reg p (ChildDesc.str c)).2
               ++ (processPreList p (preChild reg p (ChildDesc.str c)).1 (ids2.map ChildDesc.str)).2) := by
        simp [processPreList]
      rw [hunf]
      refine ⟨?_, ihn, ihid, ?_, ?_, ?_, ?_, ?_⟩
      · rw [hfr, ihfr]
        rfl
      · rw [ihp]
        simp [Topic.add_pretopic]
      · intro j t hjp hj
        exact ihpres j t hjp (hpres1 j t hjp hj)
      · intro j hjp hj hjm
        simp only [List.mem_cons, not_or] at hjm
        exact ihnone j hjp (hnone1 j hjp hjm.1 hj) hjm.2
      · intro j
        rw [ihkeys j, hkeys1 j]
        simp [or_assoc]
      · intro j hjp hj hjm
        by_cases hjc : j = c
        · subst hjc
          exact ihpres j _ hjp (hcre1 hj)
        · have hjm2 : j ∈ ids2 := by
            rcases List.mem_cons.mp hjm with h2 | h2
            · exact absurd h2 hjc
            · exact h2
          exact ihcre j hjp (hnone1 j hjp hjc hj) hjm2

theorem runSubStack_single (reg : Reg) (p : String) (l : List ChildDesc)
    (h : (processSubList p reg l).2 = []) :
    runSubStack reg [(l, p)] = (processSubList p reg l).1 := by
  rw [runSubStack, h]
  simp only [List.reverse_nil, List.nil_append]
  simp [runSubStack]

theorem runPreStack_single (reg : Reg) (p : String) (l : List ChildDesc)
    (h : (processPreList p reg l).2 = []) :
    runPreStack reg [(l, p)] = (processPreList p reg l).1 := by
  rw [runPreStack, h]
  simp only [List.reverse_nil, List.nil_append]
  simp [runPreStack]

/-- Reloading one serialised topic entry `(k, t.entryDoc)` into a registry
whose entry at `k` (if any) still has empty edge lists: afterwards `k` holds
exactly the serialised description and edge lists, other registered entries
are untouched, and the ids newly created by edge-following hold empty-edge
placeholder topics. -/
theorem loadEntry_entryDoc_spec (S : Reg) (k : String) (t : Topic)
    (hn : NodupKeys S) (hid : idOK S)
    (hcur : dictGet S k = none ∨ ∃ ds, dictGet S k = some ⟨k, ds, [], []⟩) :
    NodupKeys (loadEntry S (k, t.entryDoc)) ∧
    idOK (loadEntry S (k, t.entryDoc)) ∧
    dictGet (loadEntry S (k, t.entryDoc)) k
      = some ⟨k, t.description, t.subtopics, t.pretopics⟩ ∧
    (∀ j t2, j ≠ k → dictGet S j = some t2 →
      dictGet (loadEntry S (k, t.entryDoc)) j = some t2) ∧
    (∀ j, j ≠ k → dictGet S j = none → j ∉ t.subtopics → j ∉ t.pretopics →
      dictGet (loadEntry S (k, t.entryDoc)) j = none) ∧
    (∀ j, j ∈ dictKeys (loadEntry S (k, t.entryDoc)) ↔
      j ∈ dictKeys S ∨ j = k ∨ j ∈ t.subtopics ∨ j ∈ t.pretopics) ∧
    (∀ j, j ≠ k → dictGet S j = none → (j ∈ t.subtopics ∨ j ∈ t.pretopics) →
      ∃ ds, dictGet (loadEntry S (k, t.entryDoc)) j = some ⟨j, ds, [], []⟩) := by
  -- Stage 0: find-or-create at `k`.
  obtain ⟨d0, hS0n, hS0id, hS0k, hS0ne, hS0keys⟩ :
      ∃ d0,
        NodupKeys (match dictGet S k with
          | some _ => S
          | none => TopicList.add_topic_reg S { id := k, description := "", subtopics := [], pretopics := [] }) ∧
        idOK (match dictGet S k with
          | some _ => S
          | none => TopicList.add_topic_reg S { id := k, description := "", subtopics := [], pretopics := [] }) ∧
        dictGet (match dictGet S k with
          | some _ => S
          | none => TopicList.add_topic_reg S { id := k, description := "", subtopics := [], pretopics := [] }) k
          = some ⟨k, d0, [], []⟩ ∧
        (∀ j, j ≠ k → dictGet (match dictGet S k with
          | some _ => S
          | none => TopicList.add_topic_reg S { id := k, description := "", subtopics := [], pretopics := [] }) j
          = dictGet S j) ∧
        (∀ j, j ∈ dictKeys (match dictGet S k with
          | some _ => S
          | none => TopicList.add_topic_reg S { id := k, description := "", subtopics := [], pretopics := [] }) ↔
          j ∈ dictKeys S ∨ j = k) := by
    rcases hcur with hnone | ⟨ds, hsome⟩
    · refine ⟨"", ?_⟩
      rw [hnone]
      simp only [TopicList.add_topic_reg]
      refine ⟨nodup_dictKeys_dictUpsert S k _ hn, idOK_dictUpsert hid rfl,
        dictGet_dictUpsert_self S k _, ?_, ?_⟩
      · intro j hj
        exact dictGet_dictUpsert_ne S k j _ hj
      · intro j
        exact mem_dictKeys_dictUpsert S k j _
    · refine ⟨ds, ?_⟩
      rw [hsome]
      refine ⟨hn, hid, hsome, fun j _ => rfl, ?_⟩
      intro j
      constructor
      · exact Or.inl
      · rintro (h | rfl)
        · exact h
        · exact dictGet_mem_keys hsome
  set S0 := (match dictGet S k with
    | some _ => S
    | none => TopicList.add_topic_reg S { id := k, description := "", subtopics := [], pretopics := [] }) with hS0
  -- Stage 1: `topic.description = topic_dict.get("description", "")`.
  set S1 := regModify S0 k (fun t2 =>
    { t2 with description := (some t.description).getD "" }) with hS1def
  have hS1n : NodupKeys S1 := nodupKeys_regModify hS0n
  have hS1id : idOK S1 := idOK_regModify hS0id (fun t2 => rfl)
  have hS1k : dictGet S1 k = some ⟨k, t.description, [], []⟩ := by
    rw [hS1def, dictGet_regModify_self, hS0k]
    rfl
  have hS1ne : ∀ j, j ≠ k → dictGet S1 j = dictGet S j := by
    intro j hj
    rw [hS1def, dictGet_regModify_ne _ _ _ _ hj]
    exact hS0ne j hj
  have hS1keys : ∀ j, j ∈ dictKeys S1 ↔ j ∈ dictKeys S ∨ j = k := by
    intro j
    rw [hS1def, dictKeys_regModify]
    exact hS0keys j
  -- Stage 2: the subtopics work stack.
  obtain ⟨hfr2, hS2n, hS2id, hS2k, hS2pres, hS2none, hS2keys, hS2cre⟩ :=
    processSubList_str_spec k t.subtopics S1 ⟨k, t.description, [], []⟩ hS1n hS1id hS1k
  have hrun2 : runSubStack S1 [(t.subtopics.map ChildDesc.str, k)]
      = (processSubList k S1 (t.subtopics.map ChildDesc.str)).1 :=
    runSubStack_single S1 k _ hfr2
  set S2 := (processSubList k S1 (t.subtopics.map ChildDesc.str)).1 with hS2def
  have hS2k2 : dictGet S2 k = some ⟨k, t.description, t.subtopics, []⟩ := by
    simpa using hS2k
  -- Stage 3: the pretopics work stack.
  obtain ⟨hfr3, hS3n, hS3id, hS3k, hS3pres, hS3none, hS3keys, hS3cre⟩ :=
    processPreList_str_spec k t.pretopics S2 ⟨k, t.description, t.subtopics, []⟩ hS2n hS2id hS2k2
  have hrun3 : runPreStack S2 [(t.pretopics.map ChildDesc.str, k)]
      = (processPreList k S2 (t.pretopics.map ChildDesc.str)).1 :=
    runPreStack_single S2 k _ hfr3
  set S3 := (processPreList k S2 (t.pretopics.map ChildDesc.str)).1 with hS3def
  have hload : loadEntry S (k, t.entryDoc) = S3 := by
    simp only [loadEntry, Topic.entryDoc, ← hS0, ← hS1def, hrun2, ← hS2def, hrun3, ← hS3def]
  rw [hload]
  refine ⟨hS3n, hS3id, ?_, ?_, ?_, ?_, ?_⟩
  · simpa using hS3k
  · intro j t2 hjk hj
    exact hS3pres j t2 hjk (hS2pres j t2 hjk (by rw [hS1ne j hjk]; exact hj))
  · intro j hjk hj hjs hjp
    exact hS3none j hjk (hS2none j hjk (by rw [hS1ne j hjk]; exact hj) hjs) hjp
  · intro j
    rw [hS3keys j, hS2keys j, hS1keys j]
    constructor
    · rintro (((h | h) | h) | h)
      · exact Or.inl h
      · exact Or.inr (Or.inl h)
      · exact Or.inr (Or.inr (Or.inl h))
      · exact Or.inr (Or.inr (Or.inr h))
    · rintro (h | h | h | h)
      · exact Or.inl (Or.inl (Or.inl h))
      · exact Or.inl (Or.inl (Or.inr h))
      · exact Or.inl (Or.inr h)
      · exact Or.inr h
  · intro j hjk hj hjm
    by_cases hjs : j ∈ t.subtopics
    · have hcre := hS2cre j hjk (by rw [hS1ne j hjk]; exact hj) hjs
      exact ⟨"", hS3pres j _ hjk hcre⟩
    · rcases hjm with h2 | h2
      · exact absurd h2 hjs
      · have hnone2 := hS2none j hjk (by rw [hS1ne j hjk]; exact hj) hjs
        exact ⟨t.description, hS3cre j hjk hnone2 h2⟩

theorem mem_dictKeys_iff {α : Type} (m : List (String × α)) (j : String) :
    j ∈ dictKeys m ↔ ∃ v, (j, v) ∈ m := by
  constructor
  · intro h
    obtain ⟨q, hq, he⟩ := List.mem_map.mp h
    exact ⟨q.2, by rwa [show (j, q.2) = q from Prod.ext he.symm rfl]⟩
  · rintro ⟨v, hv⟩
    exact mem_dictKeys_of_mem hv

/-- Reloading the serialised entries of a suffix `rs` of a well-formed
registry `R` into a partial reload state `S`: every entry of `rs` ends up
holding exactly its original description and edge lists, entries outside
`rs` are untouched, and no id outside `R` ever appears. -/
theorem loadTopics_entryDocs_spec (R : Reg) (hWF : WFReg R) :
    ∀ (rs : List (String × Topic)) (S : Reg),
      (∀ q ∈ rs, dictGet R q.1 = some q.2) →
      (dictKeys rs).Nodup →
      NodupKeys S → idOK S →
      (∀ j ∈ dictKeys S, j ∈ dictKeys R) →
      (∀ q ∈ rs, dictGet S q.1 = none ∨ ∃ ds, dictGet S q.1 = some ⟨q.1, ds, [], []⟩) →
      NodupKeys (loadTopics S (rs.map (fun q => (q.1, Topic.entryDoc q.2)))) ∧
      idOK (loadTopics S (rs.map (fun q => (q.1, Topic.entryDoc q.2)))) ∧
      (∀ j ∈ dictKeys (loadTopics S (rs.map (fun q => (q.1, Topic.entryDoc q.2)))),
        j ∈ dictKeys R) ∧
      (∀ q ∈ rs, dictGet (loadTopics S (rs.map (fun q => (q.1, Topic.entryDoc q.2)))) q.1
        = some ⟨q.1, Topic.description q.2, Topic.subtopics q.2, Topic.pretopics q.2⟩) ∧
      (∀ j t2, j ∉ dictKeys rs → dictGet S j = some t2 →
        dictGet (loadTopics S (rs.map (fun q => (q.1, Topic.entryDoc q.2)))) j = some t2) ∧
      (∀ j, j ∈ dictKeys S →
        j ∈ dictKeys (loadTopics S (rs.map (fun q => (q.1, Topic.entryDoc q.2))))) := by
  intro rs
  induction rs with
  | nil =>
      intro S _ _ hnS hidS hkS _
      refine ⟨hnS, hidS, hkS, ?_, ?_, ?_⟩
      · intro q hq
        simp at hq
      · intro j t2 _ hj
        simpa [loadTopics] using hj
      · intro j hj
        simpa [loadTopics] using hj
  | cons q rest ih =>
      intro S hmem hnodup hnS hidS hkS hshape
      obtain ⟨k, t⟩ := q
      have hRk : dictGet R k = some t := hmem (k, t) (List.mem_cons_self _ _)
      have hkR : k ∈ dictKeys R := dictGet_mem_keys hRk
      have hedges := hWF.2.2 (k, t) (dictGet_mem hRk)
      have hknr : k ∉ dictKeys rest := by
        simpa [NodupKeys] using (List.nodup_cons.mp (by simpa using hnodup)).1
      obtain ⟨hn3, hid3, hk3, hpres3, hnone3, hkeys3, hcre3⟩ :=
        loadEntry_entryDoc_spec S k t hnS hidS
          (by simpa using hshape (k, t) (List.mem_cons_self _ _))
      have hunf : loadTopics S (((k, t) :: rest).map (fun q => (q.1, Topic.entryDoc q.2)))
          = loadTopics (loadEntry S (k, t.entryDoc)) (rest.map (fun q => (q.1, Topic.entryDoc q.2))) := by
        simp [loadTopics]
      rw [hunf]
      have hk3keys : ∀ j ∈ dictKeys (loadEntry S (k, t.entryDoc)), j ∈ dictKeys R := by
        intro j hj
        rcases (hkeys3 j).mp hj with h2 | h2 | h2 | h2
        · exact hkS j h2
        · rw [h2]
          exact hkR
        · exact hedges.1 j h2
        · exact hedges.2 j h2
      have hshape3 : ∀ q2 ∈ rest, dictGet (loadEntry S (k, t.entryDoc)) q2.1 = none ∨
          ∃ ds, dictGet (loadEntry S (k, t.entryDoc)) q2.1 = some ⟨q2.1, ds, [], []⟩ := by
        intro q2 hq2
        have hq2k : q2.1 ≠ k := by
          intro he
          exact hknr (he ▸ (List.mem_map_of_mem Prod.fst hq2 : q2.1 ∈ dictKeys rest))
        rcases hshape q2 (List.mem_cons_of_mem _ hq2) with hcase | ⟨ds, hcase⟩
        · by_cases hm : q2.1 ∈ t.subtopics ∨ q2.1 ∈ t.pretopics
          · exact Or.inr (hcre3 q2.1 hq2k hcase hm)
          · push_neg at hm
            exact Or.inl (hnone3 q2.1 hq2k hcase hm.1 hm.2)
        · exact Or.inr ⟨ds, hpres3 q2.1 _ hq2k hcase⟩
      obtain ⟨ihn, ihid, ihkR, ihfin, ihpres, ihmono⟩ :=
        ih (loadEntry S (k, t.entryDoc))
          (fun q2 hq2 => hmem q2 (List.mem_cons_of_mem _ hq2))
          (by simpa [NodupKeys] using (List.nodup_cons.mp (by simpa using hnodup)).2)
          hn3 hid3 hk3keys hshape3
      refine ⟨ihn, ihid, ihkR, ?_, ?_, ?_⟩
      · intro q2 hq2
        rcases List.mem_cons.mp hq2 with h2 | h2
        · rw [h2]
          exact ihpres k _ hknr hk3
        · exact ihfin q2 h2
      · intro j t2 hj hjS
        have hjk : j ≠ k := by
          intro he
          exact hj (by simp [he])
        have hjr : j ∉ dictKeys rest := by
          intro he
          exact hj (by simp [he])
        exact ihpres j t2 hjr (hpres3 j t2 hjk hjS)
      · intro j hj
        have hj3 : j ∈ dictKeys (loadEntry S (k, t.entryDoc)) := (hkeys3 j).mpr (Or.inl hj)
        rcases (mem_dictKeys_iff _ j).mp hj3 with ⟨v, hv⟩
        by_cases hjr : j ∈ dictKeys rest
        · rcases (mem_dictKeys_iff rest j).mp hjr with ⟨v2, hv2⟩
          exact dictGet_mem_keys (ihfin (j, v2) hv2)
        · exact dictGet_mem_keys (ihpres j v hjr (dictGet_of_mem_nodup hn3 hv))

/-! ## ProficiencyScore (`openproficiency/ProficiencyScore.py`) -/

inductive ProficiencyScoreName where
  | UNAWARE
  | AWARE
  | FAMILIAR
  | PROFICIENT
  | PROFICIENT_WITH_EVIDENCE
deriving DecidableEq

def ProficiencyScoreName.value : ProficiencyScoreName → ℚ
  | .UNAWARE => 0.0
  | .AWARE => 0.1
  | .FAMILIAR => 0.5
  | .PROFICIENT => 0.8
  | .PROFICIENT_WITH_EVIDENCE => 1.0

/-- The argument of `ProficiencyScore._set_score`: a float or an enum member
(any other type hits the final `else` branch, which always raises and is
therefore not modelled as a separate constructor). -/
inductive ScoreValue where
  | name (n : ProficiencyScoreName)
  | num (q : ℚ)

/-- `ProficiencyScore._set_score`: on success returns the stored `_score`. -/
def set_score : ScoreValue → Except String ℚ
  | .name n => Except.ok n.value
  | .num q =>
      if 0.0 ≤ q ∧ q ≤ 1.0 then Except.ok q
      else Except.error "Score must be between 0.0 and 1.0"

/-- `ProficiencyScore._get_name_from_score`, the body of the `score_name`
getter. -/
def get_name_from_score (score : ℚ) : Except String ProficiencyScoreName :=
  if score ≤ 0.0 then Except.ok .UNAWARE
  else if score ≤ 0.1 then Except.ok .AWARE
  else if score ≤ 0.5 then Except.ok .FAMILIAR
  else if score ≤ 0.8 then Except.ok .PROFICIENT
  else if score ≤ 1.0 then Except.ok .PROFICIENT_WITH_EVIDENCE
  else Except.error "Invalid score value"

/-! ## ProficiencyLevel (`openproficiency/ProficiencyLevel.py`)

The Python `pretopics` attribute is a `set[str]`; it is modelled as the list
of its elements in iteration order.  `pySet` models building a set from a
list, with iteration order taken to be first-insertion order. -/

structure ProficiencyLevel where
  id : String
  description : Option String
  pretopics : List String
deriving DecidableEq

def pySet (xs : List String) : List String :=
  xs.foldl (fun acc x => if x ∈ acc then acc else acc ++ [x]) []

/-- The `description` setter of `ProficiencyLevel`: at most 100 characters. -/
def checkLevelDescription (d : Option String) : Except String Unit :=
  match d with
  | none => Except.ok ()
  | some s =>
      if s.data.length ≤ 100 then Except.ok ()
      else Except.error "Description must be 100 characters or less."

/-- `ProficiencyLevel.__init__`: the `id` setter validates kebab-case, the
`description` setter enforces the length bound. -/
def ProficiencyLevel.make (id : String) (description : Option String) (pretopics : List String) :
    Except String ProficiencyLevel :=
  match validate_kebab_case id with
  | Except.error e => Except.error e
  | Except.ok _ =>
      match checkLevelDescription description with
      | Except.error e => Except.error e
      | Except.ok _ => Except.ok ⟨id, description, pretopics⟩

/-! ## ProficiencyLevelList (`openproficiency/ProficiencyLevelList.py`) -/

structure ProficiencyLevelList where
  owner : String
  name : String
  version : Option String
  timestamp : String
  certificate : String
  description : Option String
  levels : List (String × ProficiencyLevel)
  dependencies : List (String × TopicList)
deriving DecidableEq

/-- `ProficiencyLevelList.__init__`: the `owner` setter validates the
hostname, the `name` setter kebab-case and the `version` setter semver, in
that order; a string timestamp is normalised. -/
def ProficiencyLevelList.make (owner name : String) (version : Option String)
    (timestamp : String) (certificate : String) (description : Option String) :
    Except String ProficiencyLevelList :=
  match validate_hostname owner with
  | Except.error e => Except.error e
  | Except.ok _ =>
      match validate_kebab_case name with
      | Except.error e => Except.error e
      | Except.ok _ =>
          match checkVersion version with
          | Except.error e => Except.error e
          | Except.ok _ =>
              Except.ok
                { owner := owner, name := name, version := version,
                  timestamp := replaceZ timestamp, certificate := certificate,
                  description := description, levels := [], dependencies := [] }

/-- The body of the `for pretopic in level.pretopics` loop of
`ProficiencyLevelList._validate_pretopics`: the violation recorded for one
pretopic string, if any.  `split(".", 1)` is modelled by taking the first
dot-segment as the namespace and re-joining the remaining segments. -/
def pretopic_error (dependencies : List (String × TopicList)) (levelId p : String) : Option String :=
  if ¬ p.data.contains '.' then
    some ("Pretopic " ++ p ++ " in level " ++ levelId ++
      " is not in namespace notation format (expected namespace.topic-id)")
  else
    let parts := pySplit '.' p
    let ns := parts.headD ""
    let topicId := joinWith "." parts.tail
    match dictGet dependencies ns with
    | none =>
        some ("Pretopic " ++ p ++ " in level " ++ levelId ++
          " references unknown namespace " ++ ns)
    | some tl =>
        match dictGet tl.topics topicId with
        | some _ => none
        | none =>
            some ("Pretopic " ++ p ++ " in level " ++ levelId ++
              " references non-existent topic " ++ topicId ++ " in namespace " ++ ns)

/-- `ProficiencyLevelList._validate_pretopics`, returning the accumulated
error list (the caller raises when it is non-empty). -/
def validate_pretopics (dependencies : List (String × TopicList)) (level : ProficiencyLevel) :
    List String :=
  level.pretopics.foldl
    (fun errors p =>
      match pretopic_error dependencies level.id p with
      | some e => errors ++ [e]
      | none => errors) []

/-- `ProficiencyLevelList.add_level`. -/
def ProficiencyLevelList.add_level (l : ProficiencyLevelList) (level : ProficiencyLevel)
    (validate : Bool) : Except String ProficiencyLevelList :=
  if (dictGet l.levels level.id).isSome then
    Except.error ("A proficiency level with ID " ++ level.id ++ " already exists in this list")
  else
    let errors := if validate then validate_pretopics l.dependencies level else []
    if errors = [] then Except.ok { l with levels := dictUpsert l.levels level.id level }
    else Except.error (joinWith "; " errors)

/-! ## ProficiencyLevelList serialisation

`LevelDoc` and `PLLDoc` model the dictionaries produced by
`ProficiencyLevel.to_dict` and `ProficiencyLevelList.to_dict` (the
`levels` field is the hyphenated `proficiency-levels` key).  The
`json.dumps` / `json.loads` round between `to_json` and `from_json` is the
identity on these documents and is modelled away. -/

structure LevelDoc where
  id : String
  description : Option String
  pretopics : List String
deriving DecidableEq

structure PLLDoc where
  owner : String
  name : String
  version : Option String
  timestamp : String
  certificate : String
  description : Option String
  levels : List (String × LevelDoc)
  dependencies : List (String × String)
deriving DecidableEq

/-- `ProficiencyLevel.to_dict`; `list(self.pretopics)` is the modelled
iteration sequence. -/
def ProficiencyLevel.to_dict (lv : ProficiencyLevel) : LevelDoc :=
  { id := lv.id, description := lv.description, pretopics := lv.pretopics }

/-- `ProficiencyLevelList.to_dict`: dependencies are serialised as the
dependency's `TopicList.full_name`. -/
def ProficiencyLevelList.to_dict (l : ProficiencyLevelList) : PLLDoc :=
  { owner := l.owner, name := l.name, version := l.version,
    timestamp := l.timestamp, certificate := l.certificate,
    description := l.description,
    levels := l.levels.map (fun kv => (kv.1, kv.2.to_dict)),
    dependencies := l.dependencies.map (fun kv => (kv.1, kv.2.full_name)) }

/-- The dependency-value parsing of `ProficiencyLevelList.from_dict`:
`owner = full.split("/")[0]`, `name = full.split("/")[1].split("@")[0]`,
`version = full.split("@")[1]`; a missing index raises `IndexError`
(`"list index out of range"`). -/
def parseDepFullName (full : String) : Except String (String × String × String) :=
  let slash := pySplit '/' full
  let owner := slash.headD ""
  match slash[1]? with
  | none => Except.error "list index out of range"
  | some second =>
      let name := (pySplit '@' second).headD ""
      match (pySplit '@' full)[1]? with
      | none => Except.error "list index out of range"
      | some version => Except.ok (owner, name, version)

/-- One iteration of the dependency loop of `from_dict`: a shell
`TopicList(owner, name, version)` is built (its timestamp defaulting to the
current time `now`) and assigned to the namespace. -/
def fromDictDepStep (now : String) (l : ProficiencyLevelList) (kv : String × String) :
    Except String ProficiencyLevelList :=
  match parseDepFullName kv.2 with
  | Except.error e => Except.error e
  | Except.ok ond =>
      match TopicList.make now ond.1 ond.2.1 none (some ond.2.2) none none with
      | Except.error e => Except.error e
      | Except.ok tl => Except.ok { l with dependencies := dictUpsert l.dependencies kv.1 tl }

/-- One iteration of the levels loop of `from_dict`: rebuild the level (its
`pretopics` list becomes a Python set) and `add_level(level, validate=False)`. -/
def fromDictLevelStep (l : ProficiencyLevelList) (kv : String × LevelDoc) :
    Except String ProficiencyLevelList :=
  match ProficiencyLevel.make kv.1 kv.2.description (pySet kv.2.pretopics) with
  | Except.error e => Except.error e
  | Except.ok lv => l.add_level lv false

/-- `ProficiencyLevelList.from_dict`. -/
def ProficiencyLevelList.from_dict (now : String) (d : PLLDoc) :
    Except String ProficiencyLevelList :=
  match ProficiencyLevelList.make d.owner d.name d.version d.timestamp d.certificate d.description with
  | Except.error e => Except.error e
  | Except.ok base =>
      match d.dependencies.foldlM (fromDictDepStep now) base with
      | Except.error e => Except.error e
      | Except.ok l1 => d.levels.foldlM fromDictLevelStep l1

/-- The accumulating loop of `_validate_pretopics` records the violation of
every pretopic, in order, with no short-circuiting. -/
theorem validate_pretopics_eq_filterMap (dependencies : List (String × TopicList))
    (level : ProficiencyLevel) :
    validate_pretopics dependencies level
      = level.pretopics.filterMap (pretopic_error dependencies level.id) := by
  have key : ∀ (ps : List String) (acc : List String),
      ps.foldl
        (fun errors p =>
          match pretopic_error dependencies level.id p with
          | some e => errors ++ [e]
          | none => errors) acc
        = acc ++ ps.filterMap (pretopic_error dependencies level.id) := by
    intro ps
    induction ps with
    | nil => intro acc; simp
    | cons p ps ih =>
        intro acc
        cases hpe : pretopic_error dependencies level.id p <;>
          simp [List.filterMap_cons, hpe, ih]
  simpa [validate_pretopics] using key level.pretopics []

/-! ## Claim C4, C5, C8, C10 theorems -/

/-- C4: the claim says the band of a score `s ∈ [0,1]` is
`PROFICIENT_WITH_EVIDENCE` exactly when `s = 1.0` and `PROFICIENT` for
`0.8 ≤ s < 1.0` (closed-lower bands).  The code instead compares with `<=`
bottom-up, so at the failing input `0.9` it returns
`PROFICIENT_WITH_EVIDENCE` where the claim (and the repository's own test
`test_score_numeric`) demand `PROFICIENT`; similarly `0.3` lands in
`FAMILIAR` where the claim demands `AWARE`. -/
theorem c4_band_code_bug :
    get_name_from_score 0.9 = Except.ok ProficiencyScoreName.PROFICIENT_WITH_EVIDENCE ∧
    get_name_from_score 0.9 ≠ Except.ok ProficiencyScoreName.PROFICIENT ∧
    get_name_from_score 0.3 = Except.ok ProficiencyScoreName.FAMILIAR := by
  have h9 : get_name_from_score 0.9 = Except.ok ProficiencyScoreName.PROFICIENT_WITH_EVIDENCE := by
    norm_num [get_name_from_score]
  have h3 : get_name_from_score 0.3 = Except.ok ProficiencyScoreName.FAMILIAR := by
    norm_num [get_name_from_score]
  refine ⟨h9, ?_, h3⟩
  rw [h9]
  intro hc
  exact ProficiencyScoreName.noConfusion (Except.ok.inj hc)

/-- Concrete `TopicList` used as the failing input of claim C5 (the input of
the repository's own test `test_full_name_with_version`). -/
def c5TopicList : TopicList :=
  { owner := "example.com", name := "example-topic-list", description := none,
    version := some "1.2.3", timestamp := "2025-02-16T14:25:00+00:00",
    certificate := none, topics := [] }

/-- C5: the claim says `full_name` is `owner/name@version` once a version is
set.  The implementation always returns `owner/name`: on a list with version
`1.2.3` it produces `example.com/example-topic-list`, not the
`example.com/example-topic-list@1.2.3` the claim (and the repository's test
`test_full_name_with_version`) expect. -/
theorem c5_full_name_code_bug :
    c5TopicList.version = some "1.2.3" ∧
    c5TopicList.full_name = "example.com/example-topic-list" ∧
    c5TopicList.full_name ≠ "example.com/example-topic-list@1.2.3" := by
  refine ⟨rfl, rfl, ?_⟩
  decide

/-- C8: the claim says `validate_kebab_case` raises on every string that does
not fully match `^[a-z0-9]+(-[a-z0-9]+)*$`, "including trailing whitespace
such as a newline".  Because the code uses `re.match` with a `$` anchor
(which matches before a final newline), the failing input `"abc\n"` is
accepted without raising even though it does not fully match the pattern. -/
theorem c8_kebab_newline_code_bug :
    validate_kebab_case "abc\n" = Except.ok () ∧ kebabCore "abc\n" = false := by
  exact ⟨rfl, rfl⟩

/-- C10: every successful `_set_score` (run at construction and by the
`score` / `score_name` setters; the `score_name` setter stores `value.value`,
which is the `.name` case) stores a score in `[0, 1]`, and on such a score
the `score_name` getter `_get_name_from_score` is total: it returns a band
and never reaches the raising branch. -/
theorem c10_score_invariant_total (v : ScoreValue) (q : ℚ)
    (h : set_score v = Except.ok q) :
    0 ≤ q ∧ q ≤ 1 ∧ ∃ n, get_name_from_score q = Except.ok n := by
  have hb : 0 ≤ q ∧ q ≤ 1 := by
    cases v with
    | name n =>
        have hq : q = n.value := by
          simpa [set_score] using h.symm
        subst hq
        cases n <;> norm_num [ProficiencyScoreName.value]
    | num x =>
        by_cases hx : (0.0 : ℚ) ≤ x ∧ x ≤ 1.0
        · have hq : q = x := by
            simpa [set_score, hx] using h.symm
          subst hq
          have hx0 := hx.1
          have hx1 := hx.2
          norm_num at hx0 hx1
          exact ⟨hx0, hx1⟩
        · simp [set_score, hx] at h
  refine ⟨hb.1, hb.2, ?_⟩
  unfold get_name_from_score
  split_ifs with h1 h2 h3 h4 h5
  · exact ⟨_, rfl⟩
  · exact ⟨_, rfl⟩
  · exact ⟨_, rfl⟩
  · exact ⟨_, rfl⟩
  · exact ⟨_, rfl⟩
  · exfalso
    apply h5
    have : (1.0 : ℚ) = 1 := by norm_num
    rw [this]
    exact hb.2

/-- Witness for C10 at the concrete input `0.5`. -/
theorem c10_score_invariant_total_witness :
    0 ≤ (0.5 : ℚ) ∧ (0.5 : ℚ) ≤ 1 ∧ ∃ n, get_name_from_score 0.5 = Except.ok n :=
  c10_score_invariant_total (ScoreValue.num 0.5) 0.5 (by norm_num [set_score])

/-! ## Claims C1 and C7: `add_level` -/

/-- C1: with validation enabled and the level id not already present,
`add_level` examines every pretopic (the recorded violations are exactly the
per-pretopic violations of the whole `pretopics` sequence, not a prefix),
and when at least one pretopic fails to resolve it raises a single error
joining all violations with `"; "` and produces no updated list, so `levels`
is left unchanged. -/
theorem c1_add_level_error_aggregation (l : ProficiencyLevelList) (level : ProficiencyLevel)
    (hdup : dictGet l.levels level.id = none)
    (herr : level.pretopics.filterMap (pretopic_error l.dependencies level.id) ≠ []) :
    validate_pretopics l.dependencies level
        = level.pretopics.filterMap (pretopic_error l.dependencies level.id) ∧
    l.add_level level true
        = Except.error
            (joinWith "; " (level.pretopics.filterMap (pretopic_error l.dependencies level.id))) ∧
    ∀ l2, l.add_level level true ≠ Except.ok l2 := by
  have hfm := validate_pretopics_eq_filterMap l.dependencies level
  have herr2 : l.add_level level true
      = Except.error
          (joinWith "; " (level.pretopics.filterMap (pretopic_error l.dependencies level.id))) := by
    simp [ProficiencyLevelList.add_level, hdup, hfm, herr]
  refine ⟨hfm, herr2, ?_⟩
  intro l2 hcontra
  rw [herr2] at hcontra
  exact Except.noConfusion hcontra

def c1Level : ProficiencyLevel :=
  { id := "beginner", description := none, pretopics := ["algebra", "math.algebra"] }

def c1List : ProficiencyLevelList :=
  { owner := "example.com", name := "levels", version := some "1.0.0",
    timestamp := "2025-01-15T10:30:00+00:00", certificate := "cert",
    description := none, levels := [], dependencies := [] }

/-- Witness for C1: a level with one malformed and one unresolvable pretopic
against a list with no dependencies. -/
theorem c1_add_level_error_aggregation_witness :
    validate_pretopics c1List.dependencies c1Level
        = c1Level.pretopics.filterMap (pretopic_error c1List.dependencies c1Level.id) ∧
    c1List.add_level c1Level true
        = Except.error
            (joinWith "; " (c1Level.pretopics.filterMap (pretopic_error c1List.dependencies c1Level.id))) ∧
    ∀ l2, c1List.add_level c1Level true ≠ Except.ok l2 :=
  c1_add_level_error_aggregation c1List c1Level rfl (by decide)

/-- C7: when the level's id is already a key of `levels`, `add_level` raises
the duplicate error whatever the validation flag and whatever the pretopic
validation would have said (the duplicate check runs first), producing no
updated list, so the originally stored level stays; when the id is new and
validation succeeds, the level is inserted keyed by its id. -/
theorem c7_add_level_duplicate_then_insert (l : ProficiencyLevelList)
    (level level0 : ProficiencyLevel) (validate : Bool) :
    (dictGet l.levels level.id = some level0 →
      l.add_level level validate
        = Except.error
            ("A proficiency level with ID " ++ level.id ++ " already exists in this list")) ∧
    (dictGet l.levels level.id = none →
      validate_pretopics l.dependencies level = [] →
      l.add_level level true
          = Except.ok { l with levels := dictUpsert l.levels level.id level } ∧
      dictGet (dictUpsert l.levels level.id level) level.id = some level) := by
  constructor
  · intro hdup
    simp [ProficiencyLevelList.add_level, hdup]
  · intro hnew hval
    constructor
    · simp [ProficiencyLevelList.add_level, hnew, hval]
    · exact dictGet_dictUpsert_self l.levels level.id level

def c7Level0 : ProficiencyLevel :=
  { id := "beginner", description := some "first", pretopics := [] }

def c7Level1 : ProficiencyLevel :=
  { id := "beginner", description := some "second", pretopics := [] }

def c7List : ProficiencyLevelList :=
  { owner := "example.com", name := "levels", version := some "1.0.0",
    timestamp := "2025-01-15T10:30:00+00:00", certificate := "cert",
    description := none, levels := [("beginner", c7Level0)], dependencies := [] }

def c7ListEmpty : ProficiencyLevelList :=
  { owner := "example.com", name := "levels", version := some "1.0.0",
    timestamp := "2025-01-15T10:30:00+00:00", certificate := "cert",
    description := none, levels := [], dependencies := [] }

/-- Witness for C7: a second level with a duplicate id is rejected with the
duplicate error; the same level added to an empty list is inserted. -/
theorem c7_add_level_duplicate_then_insert_witness :
    c7List.add_level c7Level1 true
        = Except.error
            ("A proficiency level with ID " ++ c7Level1.id ++ " already exists in this list") ∧
    (c7ListEmpty.add_level c7Level0 true
          = Except.ok { c7ListEmpty with levels := dictUpsert c7ListEmpty.levels c7Level0.id c7Level0 } ∧
      dictGet (dictUpsert c7ListEmpty.levels c7Level0.id c7Level0) c7Level0.id = some c7Level0) :=
  ⟨(c7_add_level_duplicate_then_insert c7List c7Level1 c7Level0 true).1 rfl,
   (c7_add_level_duplicate_then_insert c7ListEmpty c7Level0 c7Level0 true).2 rfl rfl⟩

/-! ## Claim C6 -/

def c6TopicList : TopicList :=
  { owner := "example.com", name := "math-topics", description := none,
    version := some "1.0.0", timestamp := "2025-01-15T10:30:00+00:00",
    certificate := none, topics := [] }

def c6Level : ProficiencyLevel :=
  { id := "beginner", description := some "Beginner level", pretopics := [] }

def c6List : ProficiencyLevelList :=
  { owner := "example.com", name := "levels", version := some "1.0.0",
    timestamp := "2025-01-15T10:30:00+00:00", certificate := "cert",
    description := none, levels := [("beginner", c6Level)],
    dependencies := [("math", c6TopicList)] }

/-- C6: the claim says serialise → deserialise → serialise reproduces the
first dictionary for every list with dependencies and levels.  On the
failing input `c6List` (one versioned dependency, one level), `to_dict`
writes the dependency as `example.com/math-topics` — without the
`@1.0.0` suffix its own test `test_to_dict_with_dependencies` expects,
because `TopicList.full_name` drops the version — and `from_dict` then
crashes with `IndexError` on `full_name.split("@")[1]`, so the round trip
raises instead of reproducing the dictionary. -/
theorem c6_roundtrip_code_bug :
    (c6List.to_dict).dependencies = [("math", "example.com/math-topics")] ∧
    ProficiencyLevelList.from_dict "2025-06-01T00:00:00+00:00" c6List.to_dict
      = Except.error "list index out of range" := by
  exact ⟨rfl, rfl⟩

/-! ## Claim C2 -/

/-- C2: during ingestion, a child descriptor whose id is not yet registered
is created and registered with empty edge lists and a defaulted
description: the empty string in a subtopics list (bare string or object
without a `description` field), and the parent/child topic's current
description in a pretopics list.  Stated on the loop bodies
(`processSubList` / `processPreList` on a one-descriptor frame), which is
exactly how `from_json` consumes descriptors. -/
theorem c2_ingestion_description_defaults (reg : Reg) (parentId cid : String)
    (parentT : Topic) (subs pres : List ChildDesc)
    (hpar : dictGet reg parentId = some parentT)
    (habs : dictGet reg cid = none) :
    dictGet (processSubList parentId reg [ChildDesc.str cid]).1 cid
        = some { id := cid, description := "", subtopics := [], pretopics := [] } ∧
    dictGet (processSubList parentId reg [ChildDesc.obj cid none subs pres]).1 cid
        = some { id := cid, description := "", subtopics := [], pretopics := [] } ∧
    dictGet (processPreList parentId reg [ChildDesc.str cid]).1 cid
        = some { id := cid, description := parentT.description, subtopics := [], pretopics := [] } ∧
    dictGet (processPreList parentId reg [ChildDesc.obj cid none subs pres]).1 cid
        = some { id := cid, description := parentT.description, subtopics := [], pretopics := [] } := by
  have hne : cid ≠ parentId := by
    intro he
    rw [he, hpar] at habs
    exact Option.noConfusion habs
  have hdesc : currentChildDescription reg parentId = parentT.description := by
    simp [currentChildDescription, hpar]
  refine ⟨?_, ?_, ?_, ?_⟩
  · simp only [processSubList, subChild, habs]
    rw [dictGet_regModify_ne _ _ _ _ hne]
    simp [TopicList.add_topic_reg]
  · simp only [processSubList, subChild, habs]
    rw [dictGet_regModify_ne _ _ _ _ hne]
    simp [TopicList.add_topic_reg]
  · simp only [processPreList, preChild, habs, hdesc]
    rw [dictGet_regModify_ne _ _ _ _ hne]
    simp [TopicList.add_topic_reg]
  · simp only [processPreList, preChild, habs, hdesc]
    rw [dictGet_regModify_ne _ _ _ _ hne]
    simp [TopicList.add_topic_reg]

def c2Parent : Topic :=
  { id := "algebra", description := "Algebra basics", subtopics := [], pretopics := [] }

def c2Reg : Reg := [("algebra", c2Parent)]

/-- Witness for C2: a fresh child `arithmetic` under the registered parent
`algebra`. -/
theorem c2_ingestion_description_defaults_witness :
    dictGet (processSubList "algebra" c2Reg [ChildDesc.str "arithmetic"]).1 "arithmetic"
        = some { id := "arithmetic", description := "", subtopics := [], pretopics := [] } ∧
    dictGet (processSubList "algebra" c2Reg [ChildDesc.obj "arithmetic" none [] []]).1 "arithmetic"
        = some { id := "arithmetic", description := "", subtopics := [], pretopics := [] } ∧
    dictGet (processPreList "algebra" c2Reg [ChildDesc.str "arithmetic"]).1 "arithmetic"
        = some { id := "arithmetic", description := c2Parent.description, subtopics := [], pretopics := [] } ∧
    dictGet (processPreList "algebra" c2Reg [ChildDesc.obj "arithmetic" none [] []]).1 "arithmetic"
        = some { id := "arithmetic", description := c2Parent.description, subtopics := [], pretopics := [] } :=
  c2_ingestion_description_defaults c2Reg "algebra" "arithmetic" c2Parent [] [] rfl rfl

/-! ## Claim C3 -/

theorem from_json_ok_elim (now : String) (d : TLDoc) (tl : TopicList)
    (h : TopicList.from_json now d = Except.ok tl) :
    checkVersion d.version = Except.ok () ∧
    tl.version = d.version ∧ tl.topics = loadTopics [] d.topics := by
  unfold TopicList.from_json TopicList.make at h
  cases hv : checkVersion d.version with
  | error e =>
      rw [hv] at h
      exact Except.noConfusion h
  | ok u =>
      rw [hv] at h
      have he := Except.ok.inj h
      subst he
      cases u
      exact ⟨rfl, rfl, rfl⟩

/-- C3: for every `TopicList` built by ingestion, serialising with
`to_dict` and re-ingesting the result with `from_json` yields a registry
with the same set of topic ids, in which every topic keeps its description
and its `subtopics`/`pretopics` edge lists element for element, in order,
duplicates included. -/
theorem c3_from_json_to_dict_roundtrip (now now2 : String) (d : TLDoc) (tl : TopicList)
    (h : TopicList.from_json now d = Except.ok tl) :
    ∃ tl2, TopicList.from_json now2 tl.to_dict = Except.ok tl2 ∧
      (∀ i, i ∈ dictKeys tl2.topics ↔ i ∈ dictKeys tl.topics) ∧
      (∀ i t, dictGet tl.topics i = some t →
        ∃ t2, dictGet tl2.topics i = some t2 ∧ t2.description = t.description ∧
          t2.subtopics = t.subtopics ∧ t2.pretopics = t.pretopics) := by
  obtain ⟨hv, hver, _⟩ := from_json_ok_elim now d tl h
  have hWF : WFReg tl.topics := from_json_WF now d tl h
  have hv2 : checkVersion (TopicList.to_dict tl).version = Except.ok () := by
    show checkVersion tl.version = Except.ok ()
    rw [hver]
    exact hv
  have hreload : ∃ tl2, TopicList.from_json now2 tl.to_dict = Except.ok tl2 ∧
      tl2.topics = loadTopics [] (tl.topics.map (fun q => (q.1, Topic.entryDoc q.2))) := by
    simp only [TopicList.from_json, TopicList.make, hv2]
    exact ⟨_, rfl, rfl⟩
  obtain ⟨tl2, hok, htop2⟩ := hreload
  obtain ⟨_, _, hkR, hfin, _, _⟩ :=
    loadTopics_entryDocs_spec tl.topics hWF tl.topics []
      (fun q hq => by
        obtain ⟨a, b⟩ := q
        exact dictGet_of_mem_nodup hWF.1 hq)
      hWF.1
      (by simp [NodupKeys, dictKeys])
      (fun q hq => by simp at hq)
      (fun j hj => by simp at hj)
      (fun q hq => Or.inl rfl)
  refine ⟨tl2, hok, ?_, ?_⟩
  · intro i
    constructor
    · intro hi
      rw [htop2] at hi
      exact hkR i hi
    · intro hi
      obtain ⟨v, hv'⟩ := (mem_dictKeys_iff tl.topics i).mp hi
      have hfi := hfin (i, v) hv'
      rw [← htop2] at hfi
      exact dictGet_mem_keys hfi
  · intro i t ht
    have hfi := hfin (i, t) (dictGet_mem ht)
    rw [← htop2] at hfi
    exact ⟨_, hfi, rfl, rfl, rfl⟩

def c3Doc : TLDoc :=
  { owner := some "example.com", name := some "math", description := none,
    version := none, timestamp := none, certificate := none,
    topics := [("algebra", TopicData.entry
      { description := some "Algebra", subtopics := [ChildDesc.str "equations"],
        pretopics := [ChildDesc.str "arith"] })] }

def c3Loaded : TopicList :=
  { owner := "example.com", name := "math", description := none, version := none,
    timestamp := "2025-01-01T00:00:00+00:00", certificate := none,
    topics :=
      [("algebra", { id := "algebra", description := "Algebra",
                     subtopics := ["equations"], pretopics := ["arith"] }),
       ("equations", { id := "equations", description := "", subtopics := [], pretopics := [] }),
       ("arith", { id := "arith", description := "Algebra", subtopics := [], pretopics := [] })] }

/-- Witness for C3: a document with one topic entry carrying a subtopic and
a pretopic loads to `c3Loaded`, and the round trip preserves its registry. -/
theorem c3_from_json_to_dict_roundtrip_witness :
    ∃ tl2, TopicList.from_json "2026-01-01T00:00:00+00:00" c3Loaded.to_dict = Except.ok tl2 ∧
      (∀ i, i ∈ dictKeys tl2.topics ↔ i ∈ dictKeys c3Loaded.topics) ∧
      (∀ i t, dictGet c3Loaded.topics i = some t →
        ∃ t2, dictGet tl2.topics i = some t2 ∧ t2.description = t.description ∧
          t2.subtopics = t.subtopics ∧ t2.pretopics = t.pretopics) :=
  c3_from_json_to_dict_roundtrip "2025-01-01T00:00:00+00:00" "2026-01-01T00:00:00+00:00"
    c3Doc c3Loaded
    (by simp [TopicList.from_json, TopicList.make, checkVersion, loadTopics, loadEntry,
      runSubStack, processSubList, subChild, runPreStack, processPreList, preChild,
      TopicList.add_topic_reg, dictUpsert, dictGet, regModify, currentChildDescription,
      Topic.add_subtopic, Topic.add_pretopic, c3Doc, c3Loaded])

/-! ## Claim C9 -/

def c9Doc : TLDoc :=
  { owner := some "example.com", name := some "math", description := none,
    version := none, timestamp := none, certificate := none, topics := [] }

/-- C9 counterexample: the claim says `from_json` is a pure function of the
document, with the same timestamp on every load.  For a document without a
`timestamp` field the loaded timestamp is the wall clock at load time, so
two independent loads at different instants give different `TopicList`s. -/
theorem c9_purity_counterexample :
    TopicList.from_json "2025-01-01T00:00:00+00:00" c9Doc
      ≠ TopicList.from_json "2026-01-01T00:00:00+00:00" c9Doc := by
  intro h
  have h2 : ("2025-01-01T00:00:00+00:00" : String) = "2026-01-01T00:00:00+00:00" := by
    have ha : TopicList.from_json "2025-01-01T00:00:00+00:00" c9Doc
        = Except.ok
          { owner := "example.com", name := "math", description := none, version := none,
            timestamp := "2025-01-01T00:00:00+00:00", certificate := none, topics := [] } := rfl
    have hb : TopicList.from_json "2026-01-01T00:00:00+00:00" c9Doc
        = Except.ok
          { owner := "example.com", name := "math", description := none, version := none,
            timestamp := "2026-01-01T00:00:00+00:00", certificate := none, topics := [] } := rfl
    rw [ha, hb] at h
    exact congrArg TopicList.timestamp (Except.ok.inj h)
  exact absurd h2 (by decide)

/-- C9 (amended): `from_json` is a pure function of the document together
with the load-time clock; whenever the document itself carries a
`timestamp` field, the clock is not consulted and two independent loads
yield identical `TopicList`s (owner, name, version, timestamp, certificate
and the whole topics registry included). -/
theorem c9_from_json_pure_with_timestamp (now1 now2 : String) (d : TLDoc) (ts : String)
    (hts : d.timestamp = some ts) :
    TopicList.from_json now1 d = TopicList.from_json now2 d := by
  cases hv : checkVersion d.version <;>
    simp [TopicList.from_json, TopicList.make, hv, hts]

def c9DocTs : TLDoc :=
  { owner := some "example.com", name := some "math", description := none,
    version := none, timestamp := some "2025-01-15T10:30:00Z", certificate := none,
    topics := [] }

/-- Witness for the amended C9 on a document that carries a timestamp. -/
theorem c9_from_json_pure_with_timestamp_witness :
    TopicList.from_json "2025-01-01T00:00:00+00:00" c9DocTs
      = TopicList.from_json "2026-01-01T00:00:00+00:00" c9DocTs :=
  c9_from_json_pure_with_timestamp "2025-01-01T00:00:00+00:00" "2026-01-01T00:00:00+00:00"
    c9DocTs "2025-01-15T10:30:00Z" rfl

end OpenProficiency
